import Mathlib

/-!
# Verification of the BTA 2024 vote-analysis aggregation core

Shallow embedding of the repository's domain model, repositories, aggregation
engine and result projection, with theorems settling the specification claims.

Python dictionaries are modelled as insertion-ordered association lists
(`List (String × α)`); numpy 2-D float arrays are modelled as rectangular
`List (List ℚ)` (all arithmetic performed by the engine is exact: sums and
divisions, so rationals are an observationally faithful model on the non-NaN
paths; the only NaN-producing expression, `total_sum / 0` on an empty vote
set, is unobservable because `np.stack` on the empty per-school list raises
first — see `AnalysisService.analyze`).
-/

deriving instance DecidableEq for Except

namespace BTA

/-! ## Python dict as insertion-ordered association list -/

/-- Model of `d.get(k)` / `k in d` lookup: first (unique) binding of `k`. -/
def dictFind (d : List (String × α)) (k : String) : Option α :=
  (d.find? (fun p => p.1 = k)).map (fun p => p.2)

/-- Model of `d.get(k, default)`. -/
def dictGetD (d : List (String × α)) (k : String) (v₀ : α) : α :=
  (dictFind d k).getD v₀

/-- Model of `k in d`. -/
def dictHas (d : List (String × α)) (k : String) : Bool :=
  d.any (fun p => p.1 = k)

/-- Model of `d[k] = v`: update in place when the key exists (Python dicts keep the
original insertion position), append otherwise. -/
def dictSet (d : List (String × α)) (k : String) (v : α) : List (String × α) :=
  if dictHas d k then d.map (fun p => if p.1 = k then (k, v) else p)
  else d ++ [(k, v)]

/-- Model of `list(d.keys())`. -/
def dictKeys (d : List (String × α)) : List String := d.map (fun p => p.1)

/-- Model of `list(d.values())`. -/
def dictValues (d : List (String × α)) : List α := d.map (fun p => p.2)

/-- Model of `d.update(e)`: successive `d[k] = v` for each binding of `e`. -/
def dictUpdate (d e : List (String × α)) : List (String × α) :=
  e.foldl (fun acc p => dictSet acc p.1 p.2) d

/-! ## numpy 2-D arrays over ℚ -/

/-- A 2-D score matrix: list of rows. -/
abbrev Mat := List (List ℚ)

/-- Model of `m.shape` of a rectangular 2-D array: (row count, column count). -/
def matShape (m : Mat) : ℕ × ℕ :=
  (m.length, ((m.head?).map List.length).getD 0)

/-- Rectangularity: exactly `r` rows, each of length `c`. -/
def Rect (r c : ℕ) (m : Mat) : Prop :=
  m.length = r ∧ ∀ row ∈ m, row.length = c

instance : DecidablePred (fun m => Rect r c m) := fun m => by
  unfold Rect; infer_instance

/-- Model of `np.zeros((r, c))`. -/
def zeros (r c : ℕ) : Mat := List.replicate r (List.replicate c 0)

/-- Element-wise binary operation on two same-shaped arrays (numpy broadcasting
never occurs in the verified paths: every operand has the canonical shape). -/
def matZip (f : ℚ → ℚ → ℚ) (a b : Mat) : Mat :=
  List.zipWith (List.zipWith f) a b

/-- Element-wise unary operation. -/
def matMap (f : ℚ → ℚ) (m : Mat) : Mat := m.map (List.map f)

/-- Model of `a + b` on arrays. -/
def matAdd (a b : Mat) : Mat := matZip (fun x y => x + y) a b

/-- Model of `np.where(m != 0, 1, 0)`. -/
def nonzeroIndicator (m : Mat) : Mat :=
  matMap (fun x => if x ≠ 0 then 1 else 0) m

/-- Model of `m / k` for a scalar `k`. -/
def scalarDiv (m : Mat) (k : ℚ) : Mat := matMap (fun x => x / k) m

/-- Model of `np.divide(num, den, out=np.zeros_like(num), where=den > 0)`:
cells where the mask fails keep the zero of `out`. -/
def divWhere (num den : Mat) : Mat :=
  matZip (fun x y => if 0 < y then x / y else 0) num den

/-- Model of `m[i][j]` (defined, with a 0 default, also out of bounds; every verified
use is within bounds of a rectangular array). -/
def entry (m : Mat) (i j : ℕ) : ℚ := ((m.getD i []).getD j 0)

/-- Element-wise mean of a non-empty stack of same-shaped arrays:
`np.mean(np.stack(ms), axis=0)`.  On `[]`, `np.stack` raises before this is
ever evaluated; the `[]` case is unreachable in `analyze`. -/
def matMean : List Mat → Mat
  | [] => []
  | m :: ms => scalarDiv (ms.foldl matAdd m) ((m :: ms).length : ℚ)

/-! ## Domain model (`core/models.py`) -/

structure School where
  name : String
  location : Option String := none
deriving Repr, DecidableEq

/-- Audit-only metadata; never used in aggregation.  The datetime is modelled
as an opaque integer timestamp. -/
structure VoteMetadata where
  submission_time : ℤ
  submission_ip : String
  username : String
  email : Option String
  student_id : Option String
  is_student : Bool
deriving Repr, DecidableEq

/-- A vote.  The uuid is modelled by its string form (`str` on a UUID is
injective, so keying by the UUID or by its string is equivalent). -/
structure Vote where
  metadata : VoteMetadata
  school : School
  matrix : Mat
  id : String
deriving Repr, DecidableEq

structure Award where
  name : String
  works : List String
deriving Repr, DecidableEq

structure Work where
  title : String
  award_indexes : List (String × ℕ)
deriving Repr, DecidableEq

structure AnalysisResults where
  total_avg : Mat
  total_nonzero_avg : Mat
  school_avg : List (String × Mat)
  school_nonzero_avg : List (String × Mat)
  total_school_avg : Mat
  total_school_nonzero_avg : Mat
deriving Repr, DecidableEq

/-! ## `infrastructure/persistence.py`: `InMemoryVoteRepository` -/

structure InMemoryVoteRepository where
  votes : List (String × Vote)
  school_votes : List (String × List Vote)
deriving Repr, DecidableEq

namespace InMemoryVoteRepository

def empty : InMemoryVoteRepository := ⟨[], []⟩

/-- Model of `add_vote`: `self.votes[str(vote.id)] = vote`, then append the vote to
`self.school_votes[school_name]` (creating the list when absent).  The source
performs no duplicate-id check and no shape check. -/
def add_vote (r : InMemoryVoteRepository) (v : Vote) : InMemoryVoteRepository :=
  { votes := dictSet r.votes v.id v
    school_votes :=
      dictSet r.school_votes v.school.name
        (dictGetD r.school_votes v.school.name [] ++ [v]) }

def get_votes_by_school (r : InMemoryVoteRepository) (s : School) : List Vote :=
  dictGetD r.school_votes s.name []

def get_vote_count_by_school (r : InMemoryVoteRepository) (s : School) : ℕ :=
  (dictGetD r.school_votes s.name []).length

def get_all_votes (r : InMemoryVoteRepository) : List Vote :=
  dictValues r.votes

end InMemoryVoteRepository

/-! ## `managers.py`: the legacy class-based implementation -/

/-- Model of `AwardManager`, reduced to the state that `VoteManager` reads: the award
names in insertion order and the per-award work-title lists. -/
structure AwardManager where
  awards : List String
  works_by_award : List (String × List String)
deriving Repr, DecidableEq

/-- Model of `VoteManager.vote_matrix_size`:
`(len(awards), max(len(works_by_award[a.name]) for a in awards.values()))`.
`none` models the two raising paths: `max()` on an empty award set
(ValueError) and a missing `works_by_award` key (KeyError, reachable when an
award was registered with an empty work list).  The source memoizes the
result; as the award manager is never mutated after votes start arriving,
recomputation is observationally equal. -/
def AwardManager.voteMatrixSize (am : AwardManager) : Option (ℕ × ℕ) :=
  match am.awards.mapM (fun a => (dictFind am.works_by_award a).map List.length) with
  | some (c :: cs) => some (am.awards.length, cs.foldl Nat.max c)
  | _ => none

/-- Model of `VoteManager` state (`school_manager` is omitted: `add_vote` never reads
it). -/
structure VoteManager where
  award_manager : AwardManager
  votes : List (String × Vote)
  votes_count : ℕ
  school_votes : List (String × List String)
deriving Repr, DecidableEq

/-- Model of `VoteManager.add_vote`: raises `ValueError("Vote already exists")` on a
duplicate id, then `ValueError("Vote matrix size is invalid, ...")` on a shape
mismatch, and only then mutates.  Modelled as (raised exception?, state after
the call); both raises happen before any mutation, so the state component is
unchanged on error. -/
def VoteManager.add_vote (m : VoteManager) (v : Vote) : Option String × VoteManager :=
  if dictHas m.votes v.id then (some "Vote already exists", m)
  else
    match m.award_manager.voteMatrixSize with
    | none => (some "max() arg is an empty sequence", m)
    | some sz =>
      if matShape v.matrix ≠ sz then (some "Vote matrix size is invalid", m)
      else
        (none,
         { m with
            votes := dictSet m.votes v.id v
            votes_count := m.votes_count + 1
            school_votes :=
              dictSet m.school_votes v.school.name
                (dictGetD m.school_votes v.school.name [] ++ [v.id]) })

/-! ## `infrastructure/persistence.py`: `InMemoryWorkRepository`

Python stores `Work` object references; `works_by_award` aliases the entries
of `works`.  The aliasing is modelled by storing titles in `works_by_award`
and dereferencing through `works`: the lists only ever hold works drawn from
`works` (one per title), so the dataclass-equality membership test
`work not in self.works_by_award[award_name]` coincides with title
membership. -/

structure InMemoryWorkRepository where
  works : List (String × Work)
  works_by_award : List (String × List String)
deriving Repr, DecidableEq

namespace InMemoryWorkRepository

def empty : InMemoryWorkRepository := ⟨[], []⟩

/-- One step of `add_work`'s `works_by_award` registration loop: append the
work (by title) to the award's list unless already present. -/
def addWorkStep (title : String) (d : List (String × List String))
    (p : String × ℕ) : List (String × List String) :=
  let cur := dictGetD d p.1 []
  if title ∈ cur then d else dictSet d p.1 (cur ++ [title])

/-- Model of `add_work`: insert when the title is new, otherwise merge the incoming
`award_indexes` into the stored work (`dict.update`); then register the
(merged) work under each award name of its mapping, skipping award lists that
already contain it. -/
def add_work (r : InMemoryWorkRepository) (w : Work) : InMemoryWorkRepository :=
  let merged : Work :=
    match dictFind r.works w.title with
    | none => w
    | some w₀ => { title := w₀.title
                   award_indexes := dictUpdate w₀.award_indexes w.award_indexes }
  ⟨dictSet r.works w.title merged,
   merged.award_indexes.foldl (addWorkStep w.title) r.works_by_award⟩

/-- Model of `get_works_by_award`: the award's works sorted ascending by that award's
column index (`sorted(..., key=lambda x: x.award_indexes[award.name])`;
`Work` objects are dereferenced from `works`; a missing index key would raise,
which never happens on repository-built states — modelled with a 0 default). -/
def get_works_by_award (r : InMemoryWorkRepository) (award : Award) : List Work :=
  let ws := (dictGetD r.works_by_award award.name []).filterMap
    (fun t => dictFind r.works t)
  ws.mergeSort (fun a b =>
    dictGetD a.award_indexes award.name 0 ≤ dictGetD b.award_indexes award.name 0)

end InMemoryWorkRepository

/-! ## `core/services.py`: `AnalysisService.analyze`

`analyze` reads `vote_repo.get_all_votes()`, `school_repo.get_all_schools()`
and `award_repo.get_all_awards()`.  The school and award repositories only
contribute those two lists, so `analyze` is parametrized by them directly
(`get_all_schools` sorts by a pypinyin transliteration of the name — an
external library; no claim depends on the order, only on the underlying set,
so the list is taken as given). -/

/-- Model of `_get_matrix_size`: `(len(awards), max(len(a.works) for a in awards))`.
`none` models the `max()` ValueError on an empty award list. -/
def matrixSize (awards : List Award) : Option (ℕ × ℕ) :=
  match awards with
  | [] => none
  | a :: rest =>
    some (awards.length, rest.foldl (fun acc aw => Nat.max acc aw.works.length) a.works.length)

/-- The four accumulators of the vote loop. -/
structure AccState where
  total_sum : Mat
  total_nonzero_count : Mat
  school_sum : List (String × Mat)
  school_nonzero_count : List (String × Mat)
deriving Repr, DecidableEq

/-- One iteration of the vote loop.  `school_sum[vote.school.name] += ...`
raises KeyError when the vote's school is not a known school — modelled as
the error case. -/
def accumVote (st : AccState) (v : Vote) : Except String AccState :=
  match dictFind st.school_sum v.school.name, dictFind st.school_nonzero_count v.school.name with
  | some ssum, some scnt =>
    .ok { total_sum := matAdd st.total_sum v.matrix
          total_nonzero_count := matAdd st.total_nonzero_count (nonzeroIndicator v.matrix)
          school_sum := dictSet st.school_sum v.school.name (matAdd ssum v.matrix)
          school_nonzero_count :=
            dictSet st.school_nonzero_count v.school.name
              (matAdd scnt (nonzeroIndicator v.matrix)) }
  | _, _ => .error ("KeyError: " ++ v.school.name)

/-- The whole vote loop; a raised KeyError aborts it. -/
def accumVotes : List Vote → AccState → Except String AccState
  | [], st => .ok st
  | v :: vs, st =>
    match accumVote st v with
    | .ok st₁ => accumVotes vs st₁
    | .error e => .error e

/-- Model of `{school.name: np.zeros(matrix_size) for school in schools}`. -/
def initSchoolMats (schools : List School) (r c : ℕ) : List (String × Mat) :=
  schools.foldl (fun d s => dictSet d s.name (zeros r c)) []

/-- One iteration of the per-school averaging loop: schools with
`vote_count == 0` are skipped; the `school_sum` / `school_nonzero_count`
lookups always succeed (the dicts were initialized from the same school list;
the defaults are unreachable). -/
def schoolAvgStep (vr : InMemoryVoteRepository) (st : AccState)
    (acc : List (String × Mat) × List (String × Mat)) (school : School) :
    List (String × Mat) × List (String × Mat) :=
  let vc := vr.get_vote_count_by_school school
  if 0 < vc then
    (dictSet acc.1 school.name
       (scalarDiv (dictGetD st.school_sum school.name []) (vc : ℚ)),
     dictSet acc.2 school.name
       (divWhere (dictGetD st.school_sum school.name [])
                 (dictGetD st.school_nonzero_count school.name [])))
  else acc

/-- Model of `AnalysisService.analyze`.  Error cases, in evaluation order: `max()` on
an empty award list; KeyError on a vote from an unknown school;
`np.stack([])` (`"need at least one array to stack"`) when no school has a
vote.  `total_avg` is computed before the stack, so on an empty vote set the
NaN matrix `total_sum / 0` is produced but never escapes: the stack raises
first (`ℚ` division by zero yields 0 here, observationally equivalent). -/
def analyze (vr : InMemoryVoteRepository) (schools : List School)
    (awards : List Award) : Except String AnalysisResults :=
  match matrixSize awards with
  | none => .error "max() arg is an empty sequence"
  | some (r, c) =>
    match accumVotes vr.get_all_votes
        ⟨zeros r c, zeros r c, initSchoolMats schools r c,
         initSchoolMats schools r c⟩ with
    | .error e => .error e
    | .ok st =>
      match dictValues (schools.foldl (schoolAvgStep vr st) ([], [])).1 with
      | [] => .error "need at least one array to stack"
      | m :: ms =>
        .ok { total_avg := scalarDiv st.total_sum ((vr.get_all_votes).length : ℚ)
              total_nonzero_avg := divWhere st.total_sum st.total_nonzero_count
              school_avg := (schools.foldl (schoolAvgStep vr st) ([], [])).1
              school_nonzero_avg := (schools.foldl (schoolAvgStep vr st) ([], [])).2
              total_school_avg := matMean (m :: ms)
              total_school_nonzero_avg :=
                matMean (dictValues (schools.foldl (schoolAvgStep vr st) ([], [])).2) }

/-! ### Standalone forms of the accumulated quantities -/

/-- Sum of all vote matrices. -/
def totalSumOf (votes : List Vote) (r c : ℕ) : Mat :=
  votes.foldl (fun acc v => matAdd acc v.matrix) (zeros r c)

/-- Element-wise count of votes with a non-zero score. -/
def totalNonzeroCountOf (votes : List Vote) (r c : ℕ) : Mat :=
  votes.foldl (fun acc v => matAdd acc (nonzeroIndicator v.matrix)) (zeros r c)

/-- One school's share of the global vote list. -/
def votesOfSchool (votes : List Vote) (name : String) : List Vote :=
  votes.filter (fun v => v.school.name = name)

/-- Sum of one school's vote matrices. -/
def schoolSumOf (votes : List Vote) (name : String) (r c : ℕ) : Mat :=
  totalSumOf (votesOfSchool votes name) r c

/-- Element-wise non-zero count of one school's votes. -/
def schoolNonzeroCountOf (votes : List Vote) (name : String) (r c : ℕ) : Mat :=
  totalNonzeroCountOf (votesOfSchool votes name) r c

/-- Coherence of a vote-repository state: the per-school index lists exactly
the global votes of that school, in order.  This holds for every state built
by `add_vote` from fresh ids (a duplicate id overwrites the global entry but
appends a second time to the index, breaking coherence — see the C5
counterexample). -/
def Coherent (vr : InMemoryVoteRepository) : Prop :=
  (∀ p ∈ vr.school_votes, p.2 = votesOfSchool vr.get_all_votes p.1) ∧
  (∀ v ∈ vr.get_all_votes, dictHas vr.school_votes v.school.name)

instance : DecidablePred Coherent := fun vr => by
  unfold Coherent; infer_instance

/-! ## The projected result document (`AnalysisService.generate_report`)

A JSON-like document tree: Python dicts with string keys, lists, floats
(modelled as ℚ), ints, strings, booleans, None. -/

inductive JVal where
  | null
  | jbool (b : Bool)
  | jint (n : ℤ)
  | jfloat (q : ℚ)
  | jstr (s : String)
  | jarr (items : List JVal)
  | jobj (fields : List (String × JVal))
deriving Repr

def jOptStr : Option String → JVal
  | none => .null
  | some s => .jstr s

/-- Model of `schools = [s for s in school_repo.get_all_schools() if s.name in
results.school_avg]` — the schools the report covers. -/
def reportSchools (schoolsAll : List School) (results : AnalysisResults) : List School :=
  schoolsAll.filter (fun s => dictHas results.school_avg s.name)

/-- The `"school_avg"` list of one work entry
(`services.py`, `generate_report`): one `(school_name, avg, nonzero_avg)`
triple `for school in schools if school.name in results.school_avg` —
note: no condition on the cell value. -/
def workSchoolAvgList (schools : List School) (results : AnalysisResults)
    (i j : ℕ) : List (String × ℚ × ℚ) :=
  (schools.filter (fun s => dictHas results.school_avg s.name)).map (fun s =>
    (s.name,
     entry (dictGetD results.school_avg s.name []) i j,
     entry (dictGetD results.school_nonzero_avg s.name []) i j))

/-- One work's entry of the report (`j = work.award_indexes[award.name]`;
the key is present on repository-built states — 0 default). -/
def workEntryJson (results : AnalysisResults) (schools : List School)
    (award : Award) (i : ℕ) (w : Work) : JVal :=
  let j := dictGetD w.award_indexes award.name 0
  .jobj
    [("title", .jstr w.title),
     ("total_avg", .jobj
        [("avg", .jfloat (entry results.total_avg i j)),
         ("nonzero_avg", .jfloat (entry results.total_nonzero_avg i j))]),
     ("total_school_avg", .jobj
        [("avg", .jfloat (entry results.total_school_avg i j)),
         ("nonzero_avg", .jfloat (entry results.total_school_nonzero_avg i j))]),
     ("school_avg", .jarr ((workSchoolAvgList schools results i j).map (fun p =>
        .jobj [("school_name", .jstr p.1),
               ("avg", .jfloat p.2.1),
               ("nonzero_avg", .jfloat p.2.2)])))]

/-- Model of `AnalysisService.generate_report`'s `report_data` document. -/
def generate_report (vr : InMemoryVoteRepository) (schoolsAll : List School)
    (awards : List Award) (wr : InMemoryWorkRepository)
    (results : AnalysisResults) : JVal :=
  let schools := reportSchools schoolsAll results
  .jobj
    [("stats", .jobj
        [("total_school_count", .jint schools.length),
         ("total_vote_count", .jint vr.get_all_votes.length)]),
     ("schools", .jarr (schools.map (fun s =>
        .jobj [("name", .jstr s.name),
               ("location", jOptStr s.location),
               ("vote_count", .jint (vr.get_vote_count_by_school s))]))),
     ("awards", .jarr (awards.enum.map (fun p =>
        .jobj [("name", .jstr p.2.name),
               ("works", .jarr ((wr.get_works_by_award p.2).map
                  (workEntryJson results schools p.2 p.1)))])))]

/-! ## `adapters/output/json.py`: the binary cache format

`_round_float`: Python `round(value, 4)` — round half to even at 4 decimal
places. -/

def roundHalfEven (q : ℚ) : ℤ :=
  let f := ⌊q⌋
  let frac := q - f
  if frac < 1/2 then f
  else if 1/2 < frac then f + 1
  else if f % 2 = 0 then f else f + 1

def round_float (q : ℚ) : ℚ := (roundHalfEven (q * 10000) : ℚ) / 10000

mutual

/-- Model of `JsonReporter._optimize_for_msgpack._process_value`: recursively rebuild
the document, rounding every float to 4 decimal places. -/
def process_value : JVal → JVal
  | .null => .null
  | .jbool b => .jbool b
  | .jint n => .jint n
  | .jfloat q => .jfloat (round_float q)
  | .jstr s => .jstr s
  | .jarr xs => .jarr (process_list xs)
  | .jobj kvs => .jobj (process_fields kvs)

def process_list : List JVal → List JVal
  | [] => []
  | x :: xs => process_value x :: process_list xs

def process_fields : List (String × JVal) → List (String × JVal)
  | [] => []
  | p :: kvs => (p.1, process_value p.2) :: process_fields kvs

end

mutual

/-- Spec wording for the rounding pass: apply a function to every float,
leaving all structure — in particular every mapping — intact. -/
def mapFloats (f : ℚ → ℚ) : JVal → JVal
  | .null => .null
  | .jbool b => .jbool b
  | .jint n => .jint n
  | .jfloat q => .jfloat (f q)
  | .jstr s => .jstr s
  | .jarr xs => .jarr (mapFloatsList f xs)
  | .jobj kvs => .jobj (mapFloatsFields f kvs)

def mapFloatsList (f : ℚ → ℚ) : List JVal → List JVal
  | [] => []
  | x :: xs => mapFloats f x :: mapFloatsList f xs

def mapFloatsFields (f : ℚ → ℚ) : List (String × JVal) → List (String × JVal)
  | [] => []
  | p :: kvs => (p.1, mapFloats f p.2) :: mapFloatsFields f kvs

end

/-- Modelled from the spec: the `msgpack` library itself is not part of the
repository source; §6 specifies its contract as "a canonical tree-to-bytes
encoding (mapping preserved)".  The byte stream is abstracted to a token
stream, one token per scalar plus length-prefix tokens for arrays and maps,
exactly the framing msgpack uses. -/
inductive Tok where
  | tnull
  | tbool (b : Bool)
  | tint (n : ℤ)
  | tfloat (q : ℚ)
  | tstr (s : String)
  | tarr (n : ℕ)
  | tmap (n : ℕ)
deriving Repr, DecidableEq

mutual

/-- Modelled from the spec: `msgpack.packb` — serialize a document to the
token stream. -/
def encodeVal : JVal → List Tok
  | .null => [.tnull]
  | .jbool b => [.tbool b]
  | .jint n => [.tint n]
  | .jfloat q => [.tfloat q]
  | .jstr s => [.tstr s]
  | .jarr xs => .tarr xs.length :: encodeList xs
  | .jobj kvs => .tmap kvs.length :: encodeFields kvs

def encodeList : List JVal → List Tok
  | [] => []
  | x :: xs => encodeVal x ++ encodeList xs

def encodeFields : List (String × JVal) → List Tok
  | [] => []
  | p :: kvs => .tstr p.1 :: (encodeVal p.2 ++ encodeFields kvs)

end

mutual

/-- Modelled from the spec: `msgpack.unpack` — parse one value from the
front of a token stream.  The fuel bounds the nesting depth of the parsed
value; the top-level entry point supplies the stream length, which always
suffices. -/
def decodeVal : ℕ → List Tok → Option (JVal × List Tok)
  | 0, _ => none
  | _ + 1, [] => none
  | _ + 1, .tnull :: ts => some (.null, ts)
  | _ + 1, .tbool b :: ts => some (.jbool b, ts)
  | _ + 1, .tint n :: ts => some (.jint n, ts)
  | _ + 1, .tfloat q :: ts => some (.jfloat q, ts)
  | _ + 1, .tstr s :: ts => some (.jstr s, ts)
  | f + 1, .tarr n :: ts =>
    match decodeItems f n ts with
    | some (xs, rest) => some (.jarr xs, rest)
    | none => none
  | f + 1, .tmap n :: ts =>
    match decodeFields f n ts with
    | some (kvs, rest) => some (.jobj kvs, rest)
    | none => none
termination_by f _ => (f, 0)

def decodeItems : ℕ → ℕ → List Tok → Option (List JVal × List Tok)
  | _, 0, ts => some ([], ts)
  | f, n + 1, ts =>
    match decodeVal f ts with
    | some (x, rest) =>
      match decodeItems f n rest with
      | some (xs, rest₂) => some (x :: xs, rest₂)
      | none => none
    | none => none
termination_by f n _ => (f, n + 1)

def decodeFields : ℕ → ℕ → List Tok → Option (List (String × JVal) × List Tok)
  | _, 0, ts => some ([], ts)
  | f, n + 1, .tstr k :: ts =>
    match decodeVal f ts with
    | some (x, rest) =>
      match decodeFields f n rest with
      | some (kvs, rest₂) => some ((k, x) :: kvs, rest₂)
      | none => none
    | none => none
  | _, _ + 1, _ => none
termination_by f n _ => (f, n + 1)

end

mutual

/-- Nesting depth of a document (drives the decoder's fuel). -/
def jdepth : JVal → ℕ
  | .jarr xs => jdepthList xs + 1
  | .jobj kvs => jdepthFields kvs + 1
  | _ => 1

def jdepthList : List JVal → ℕ
  | [] => 0
  | x :: xs => Nat.max (jdepth x) (jdepthList xs)

def jdepthFields : List (String × JVal) → ℕ
  | [] => 0
  | p :: kvs => Nat.max (jdepth p.2) (jdepthFields kvs)

end

/-- The msgpack path of `JsonReporter.generate_report`: round the floats,
then serialize. -/
def msgPack (d : JVal) : List Tok := encodeVal (process_value d)

/-- Model of `JsonReporter.msgpack_to_json`'s read-back: parse a whole stream. -/
def msgUnpack (ts : List Tok) : Option JVal :=
  match decodeVal ts.length ts with
  | some (v, []) => some v
  | _ => none

/-! ## A concrete scenario (§8 of the spec)

Two schools X and Y, one award with works `["A", "B"]`; X casts one vote
`[[3, 0]]`, Y casts one vote `[[0, 5]]`. -/

def schoolX : School := { name := "X" }

def schoolY : School := { name := "Y" }

def metaS : VoteMetadata := ⟨0, "ip", "user", none, none, true⟩

def vote1 : Vote := ⟨metaS, schoolX, [[3, 0]], "id1"⟩

def vote2 : Vote := ⟨metaS, schoolY, [[0, 5]], "id2"⟩

/-- A vote whose matrix shape (2, 3) differs from the canonical (1, 2). -/
def badVote : Vote := ⟨metaS, schoolX, [[1, 2, 3], [4, 5, 6]], "id3"⟩

/-- A second vote re-using `vote1`'s id. -/
def dupVote : Vote := ⟨metaS, schoolX, [[2, 2]], "id1"⟩

def awardA : Award := ⟨"a", ["A", "B"]⟩

def scenarioSchools : List School := [schoolX, schoolY]

def scenarioAwards : List Award := [awardA]

def scenarioVr : InMemoryVoteRepository :=
  (InMemoryVoteRepository.empty.add_vote vote1).add_vote vote2

/-- The analysis results of the scenario (§8's expected values). -/
def scenarioRes : AnalysisResults :=
  { total_avg := [[3/2, 5/2]]
    total_nonzero_avg := [[3, 5]]
    school_avg := [("X", [[3, 0]]), ("Y", [[0, 5]])]
    school_nonzero_avg := [("X", [[3, 0]]), ("Y", [[0, 5]])]
    total_school_avg := [[3/2, 5/2]]
    total_school_nonzero_avg := [[3/2, 5/2]] }

/-- A legacy `VoteManager` over the same single award. -/
def scenarioVm : VoteManager :=
  { award_manager := ⟨["a"], [("a", ["A", "B"])]⟩
    votes := []
    votes_count := 0
    school_votes := [] }

theorem scenario_analyze :
    analyze scenarioVr scenarioSchools scenarioAwards = .ok scenarioRes := by
  simp [analyze, matrixSize, accumVotes, accumVote, initSchoolMats,
    schoolAvgStep, matMean, scalarDiv, divWhere, matAdd, matZip, matMap,
    nonzeroIndicator, zeros, dictSet, dictFind, dictGetD, dictHas, dictKeys,
    dictValues, InMemoryVoteRepository.get_all_votes,
    InMemoryVoteRepository.get_vote_count_by_school,
    InMemoryVoteRepository.add_vote, InMemoryVoteRepository.empty,
    scenarioVr, scenarioSchools, scenarioAwards, scenarioRes, vote1, vote2,
    schoolX, schoolY, metaS, awardA]

theorem scenario_coherent : Coherent scenarioVr := by decide

/-! ## Association-list lemmas -/

theorem dictFind_cons (p : String × α) (d : List (String × α)) (k : String) :
    dictFind (p :: d) k = if p.1 = k then some p.2 else dictFind d k := by
  by_cases h : p.1 = k <;> simp [dictFind, List.find?_cons, h]

theorem dictHas_cons (p : String × α) (d : List (String × α)) (k : String) :
    dictHas (p :: d) k = (decide (p.1 = k) || dictHas d k) := by
  simp [dictHas]

theorem dictHas_iff_mem (d : List (String × α)) (k : String) :
    dictHas d k = true ↔ k ∈ dictKeys d := by
  simp only [dictHas, List.any_eq_true, decide_eq_true_eq, dictKeys,
    List.mem_map]

theorem dictFind_isSome (d : List (String × α)) (k : String) :
    (dictFind d k).isSome = dictHas d k := by
  induction d with
  | nil => simp [dictFind, dictHas]
  | cons p d ih => by_cases h : p.1 = k <;> simp [dictFind_cons, dictHas_cons, h, ih]

theorem dictFind_eq_none (d : List (String × α)) (k : String)
    (h : dictHas d k = false) : dictFind d k = none := by
  cases hf : dictFind d k with
  | none => rfl
  | some v =>
    have hs := dictFind_isSome d k
    rw [hf, h] at hs
    simp at hs

theorem dictFind_mem (d : List (String × α)) (k : String) (v : α)
    (h : dictFind d k = some v) : (k, v) ∈ d := by
  induction d with
  | nil => simp [dictFind] at h
  | cons p d ih =>
    rw [dictFind_cons] at h
    by_cases hp : p.1 = k
    · rw [if_pos hp] at h
      have hpv : p = (k, v) := by
        obtain ⟨a, b⟩ := p
        simp only [Option.some.injEq] at h
        simp only at hp
        rw [hp, h]
      rw [← hpv]
      exact List.mem_cons_self _ _
    · rw [if_neg hp] at h
      exact List.mem_cons_of_mem _ (ih h)

theorem dictFind_map_set (d : List (String × α)) (k k₂ : String) (v : α)
    (h : k₂ ≠ k) :
    dictFind (d.map (fun p => if p.1 = k then (k, v) else p)) k₂ =
      dictFind d k₂ := by
  have hk : ¬ (k = k₂) := fun hc => h hc.symm
  induction d with
  | nil => simp [dictFind]
  | cons p d ih =>
    rw [List.map_cons, dictFind_cons, dictFind_cons]
    by_cases hp : p.1 = k <;> by_cases hpk : p.1 = k₂ <;>
      simp [hp, hpk, hk, h, ih]

theorem dictFind_append_single (d : List (String × α)) (k k₂ : String) (v : α)
    (h : k₂ ≠ k) : dictFind (d ++ [(k, v)]) k₂ = dictFind d k₂ := by
  have hk : ¬ (k = k₂) := fun hc => h hc.symm
  induction d with
  | nil => simp [dictFind_cons, dictFind, hk]
  | cons p d ih =>
    rw [List.cons_append, dictFind_cons, dictFind_cons]
    by_cases hpk : p.1 = k₂ <;> simp [hpk, ih]

theorem dictFind_dictSet_self (d : List (String × α)) (k : String) (v : α) :
    dictFind (dictSet d k v) k = some v := by
  unfold dictSet
  by_cases hh : dictHas d k
  · rw [if_pos hh]
    rw [dictHas_iff_mem] at hh
    induction d with
    | nil => simp [dictKeys] at hh
    | cons p d ih =>
      rw [List.map_cons, dictFind_cons]
      by_cases hp : p.1 = k
      · simp [hp]
      · have hd : k ∈ dictKeys d := by
          rcases (by simpa [dictKeys] using hh : k = p.1 ∨ k ∈ dictKeys d) with hc | hc
          · exact absurd hc.symm hp
          · exact hc
        simp only [if_neg hp]
        exact ih hd
  · rw [if_neg hh]
    induction d with
    | nil => simp [dictFind_cons]
    | cons p d ih =>
      rw [dictHas_cons] at hh
      simp only [Bool.or_eq_true, decide_eq_true_eq, not_or] at hh
      rw [List.cons_append, dictFind_cons, if_neg hh.1]
      exact ih (by simpa using hh.2)

theorem dictFind_dictSet_ne (d : List (String × α)) (k k₂ : String) (v : α)
    (h : k₂ ≠ k) : dictFind (dictSet d k v) k₂ = dictFind d k₂ := by
  unfold dictSet
  by_cases hh : dictHas d k
  · rw [if_pos hh]
    exact dictFind_map_set d k k₂ v h
  · rw [if_neg hh]
    exact dictFind_append_single d k k₂ v h

theorem dictGetD_dictSet_self (d : List (String × α)) (k : String) (v v₀ : α) :
    dictGetD (dictSet d k v) k v₀ = v := by
  simp [dictGetD, dictFind_dictSet_self]

theorem dictKeys_dictSet_of_has (d : List (String × α)) (k : String) (v : α)
    (h : dictHas d k = true) : dictKeys (dictSet d k v) = dictKeys d := by
  simp only [dictSet, h, if_pos, dictKeys, List.map_map]
  apply List.map_congr_left
  intro p _
  by_cases hpk : p.1 = k <;> simp [hpk]

theorem dictKeys_dictSet_of_not (d : List (String × α)) (k : String) (v : α)
    (h : dictHas d k = false) : dictKeys (dictSet d k v) = dictKeys d ++ [k] := by
  simp [dictSet, h, dictKeys]

theorem length_dictSet_of_has (d : List (String × α)) (k : String) (v : α)
    (h : dictHas d k = true) : (dictSet d k v).length = d.length := by
  simp [dictSet, h]

theorem length_dictSet_of_not (d : List (String × α)) (k : String) (v : α)
    (h : dictHas d k = false) : (dictSet d k v).length = d.length + 1 := by
  simp [dictSet, h]

theorem dictHas_dictSet_self (d : List (String × α)) (k : String) (v : α) :
    dictHas (dictSet d k v) k = true := by
  rw [← dictFind_isSome, dictFind_dictSet_self]
  rfl

theorem dictHas_dictSet_ne (d : List (String × α)) (k k₂ : String) (v : α)
    (h : k₂ ≠ k) : dictHas (dictSet d k v) k₂ = dictHas d k₂ := by
  rw [← dictFind_isSome, ← dictFind_isSome, dictFind_dictSet_ne d k k₂ v h]

/-! ## Matrix lemmas -/

theorem getD_of_lt (l : List γ) (i : ℕ) (d : γ) (h : i < l.length) :
    l.getD i d = l.get ⟨i, h⟩ := by
  simp [List.getD_eq_getElem?_getD, List.getElem?_eq_getElem h]

theorem getD_map_of_lt (f : γ → δ) (l : List γ) (i : ℕ) (dg : γ) (dd : δ)
    (h : i < l.length) : (l.map f).getD i dd = f (l.getD i dg) := by
  induction l generalizing i with
  | nil => simp at h
  | cons x l ih =>
    cases i with
    | zero => simp
    | succ i => simpa using ih i (by simpa using h)

theorem getD_zipWith_of_lt (f : γ → δ → ε) (a : List γ) (b : List δ) (i : ℕ)
    (da : γ) (db : δ) (de : ε) (ha : i < a.length) (hb : i < b.length) :
    (List.zipWith f a b).getD i de = f (a.getD i da) (b.getD i db) := by
  induction a generalizing b i with
  | nil => simp at ha
  | cons x a ih =>
    cases b with
    | nil => simp at hb
    | cons y b =>
      cases i with
      | zero => simp
      | succ i => simpa using ih b i (by simpa using ha) (by simpa using hb)

theorem getD_of_le (l : List γ) (i : ℕ) (d : γ) (h : l.length ≤ i) :
    l.getD i d = d := by
  simp [List.getD_eq_getElem?_getD, List.getElem?_eq_none h]

theorem getD_replicate_of_lt (n : ℕ) (x : γ) (i : ℕ) (d : γ) (h : i < n) :
    (List.replicate n x).getD i d = x := by
  rw [getD_of_lt _ i d (by simpa using h)]
  simp [List.get_replicate]

theorem mem_getD_of_lt (l : List γ) (i : ℕ) (d : γ) (h : i < l.length) :
    l.getD i d ∈ l := by
  rw [getD_of_lt l i d h]
  exact List.get_mem l i h

theorem Rect_zeros (r c : ℕ) : Rect r c (zeros r c) := by
  constructor
  · simp [zeros]
  · intro row hrow
    simp only [zeros, List.mem_replicate] at hrow
    simp [hrow.2]

theorem entry_zeros (r c i j : ℕ) : entry (zeros r c) i j = 0 := by
  unfold entry zeros
  by_cases hi : i < r
  · rw [getD_replicate_of_lt r _ i [] hi]
    by_cases hj : j < c
    · rw [getD_replicate_of_lt c _ j 0 hj]
    · rw [getD_of_le _ j 0 (by simpa using Nat.le_of_not_lt hj)]
  · rw [getD_of_le _ i [] (by simpa using Nat.le_of_not_lt hi)]
    simp

theorem Rect_matZip (f : ℚ → ℚ → ℚ) (a b : Mat) (r c : ℕ)
    (ha : Rect r c a) (hb : Rect r c b) : Rect r c (matZip f a b) := by
  obtain ⟨hal, har⟩ := ha
  obtain ⟨hbl, hbr⟩ := hb
  constructor
  · simp [matZip, hal, hbl]
  · intro row hrow
    simp only [matZip] at hrow
    rw [List.mem_iff_get] at hrow
    obtain ⟨⟨n, hn⟩, hrow⟩ := hrow
    rw [List.get_zipWith] at hrow
    simp only [List.length_zipWith, hal, hbl, Nat.min_self] at hn
    rw [← hrow]
    simp only [List.length_zipWith]
    rw [har _ (List.get_mem _ _ _), hbr _ (List.get_mem _ _ _)]
    simp

theorem Rect_matMap (f : ℚ → ℚ) (m : Mat) (r c : ℕ) (hm : Rect r c m) :
    Rect r c (matMap f m) := by
  obtain ⟨hl, hr⟩ := hm
  constructor
  · simp [matMap, hl]
  · intro row hrow
    simp only [matMap, List.mem_map] at hrow
    obtain ⟨row₀, hmem, hrow⟩ := hrow
    rw [← hrow]
    simp [hr row₀ hmem]

theorem entry_matZip (f : ℚ → ℚ → ℚ) (a b : Mat) (r c i j : ℕ)
    (ha : Rect r c a) (hb : Rect r c b) (hi : i < r) (hj : j < c) :
    entry (matZip f a b) i j = f (entry a i j) (entry b i j) := by
  obtain ⟨hal, har⟩ := ha
  obtain ⟨hbl, hbr⟩ := hb
  unfold entry matZip
  rw [getD_zipWith_of_lt (List.zipWith f) a b i [] [] []
    (by omega) (by omega)]
  rw [getD_zipWith_of_lt f (a.getD i []) (b.getD i []) j 0 0 0
    (by rw [har _ (mem_getD_of_lt a i [] (by omega))]; omega)
    (by rw [hbr _ (mem_getD_of_lt b i [] (by omega))]; omega)]

theorem entry_matMap (f : ℚ → ℚ) (m : Mat) (r c i j : ℕ)
    (hm : Rect r c m) (hi : i < r) (hj : j < c) :
    entry (matMap f m) i j = f (entry m i j) := by
  obtain ⟨hl, hr⟩ := hm
  unfold entry matMap
  rw [getD_map_of_lt (List.map f) m i [] [] (by omega)]
  rw [getD_map_of_lt f (m.getD i []) j 0 0
    (by rw [hr _ (mem_getD_of_lt m i [] (by omega))]; omega)]

/-! ## Vote-accumulation lemmas -/

theorem dictHas_dictSet_of_has (d : List (String × α)) (k k₂ : String) (v : α)
    (h : dictHas d k₂ = true) : dictHas (dictSet d k v) k₂ = true := by
  by_cases hk : k₂ = k
  · rw [hk]
    exact dictHas_dictSet_self d k v
  · rw [dictHas_dictSet_ne d k k₂ v hk]
    exact h

theorem accumVote_ok (st : AccState) (v : Vote) (st₁ : AccState)
    (h : accumVote st v = .ok st₁) :
    ∃ ssum scnt,
      dictFind st.school_sum v.school.name = some ssum ∧
      dictFind st.school_nonzero_count v.school.name = some scnt ∧
      st₁ = ⟨matAdd st.total_sum v.matrix,
             matAdd st.total_nonzero_count (nonzeroIndicator v.matrix),
             dictSet st.school_sum v.school.name (matAdd ssum v.matrix),
             dictSet st.school_nonzero_count v.school.name
               (matAdd scnt (nonzeroIndicator v.matrix))⟩ := by
  unfold accumVote at h
  split at h
  · rename_i ssum scnt hs hc
    exact ⟨ssum, scnt, hs, hc, (Except.ok.inj h).symm⟩
  · simp at h

theorem accumVote_ok_intro (st : AccState) (v : Vote) (ssum scnt : Mat)
    (hs : dictFind st.school_sum v.school.name = some ssum)
    (hc : dictFind st.school_nonzero_count v.school.name = some scnt) :
    accumVote st v =
      .ok ⟨matAdd st.total_sum v.matrix,
           matAdd st.total_nonzero_count (nonzeroIndicator v.matrix),
           dictSet st.school_sum v.school.name (matAdd ssum v.matrix),
           dictSet st.school_nonzero_count v.school.name
             (matAdd scnt (nonzeroIndicator v.matrix))⟩ := by
  unfold accumVote
  rw [hs, hc]

theorem accumVotes_totals (votes : List Vote) (st st₂ : AccState)
    (h : accumVotes votes st = .ok st₂) :
    st₂.total_sum = votes.foldl (fun a v => matAdd a v.matrix) st.total_sum ∧
    st₂.total_nonzero_count =
      votes.foldl (fun a v => matAdd a (nonzeroIndicator v.matrix))
        st.total_nonzero_count := by
  induction votes generalizing st with
  | nil =>
    obtain rfl : st = st₂ := Except.ok.inj h
    simp
  | cons v vs ih =>
    unfold accumVotes at h
    cases hacc : accumVote st v with
    | error e => rw [hacc] at h; simp at h
    | ok st₁ =>
      rw [hacc] at h
      obtain ⟨ssum, scnt, hs, hc, rfl⟩ := accumVote_ok st v st₁ hacc
      obtain ⟨h1, h2⟩ := ih _ h
      exact ⟨by simpa using h1, by simpa using h2⟩

theorem votesOfSchool_cons (v : Vote) (vs : List Vote) (n : String) :
    votesOfSchool (v :: vs) n =
      if v.school.name = n then v :: votesOfSchool vs n
      else votesOfSchool vs n := by
  by_cases hv : v.school.name = n <;> simp [votesOfSchool, List.filter_cons, hv]

theorem accumVotes_find (votes : List Vote) (st st₂ : AccState) (n : String)
    (m₀ c₀ : Mat) (h : accumVotes votes st = .ok st₂)
    (hm : dictFind st.school_sum n = some m₀)
    (hc : dictFind st.school_nonzero_count n = some c₀) :
    dictFind st₂.school_sum n =
      some ((votesOfSchool votes n).foldl (fun a v => matAdd a v.matrix) m₀) ∧
    dictFind st₂.school_nonzero_count n =
      some ((votesOfSchool votes n).foldl
        (fun a v => matAdd a (nonzeroIndicator v.matrix)) c₀) := by
  induction votes generalizing st m₀ c₀ with
  | nil =>
    obtain rfl : st = st₂ := Except.ok.inj h
    simp [votesOfSchool, hm, hc]
  | cons v vs ih =>
    unfold accumVotes at h
    cases hacc : accumVote st v with
    | error e => rw [hacc] at h; simp at h
    | ok st₁ =>
      rw [hacc] at h
      obtain ⟨ssum, scnt, hs, hc₁, rfl⟩ := accumVote_ok st v st₁ hacc
      rw [votesOfSchool_cons]
      by_cases hv : v.school.name = n
      · rw [if_pos hv]
        rw [hv] at hs hc₁
        have heqs : ssum = m₀ := by
          rw [hm] at hs
          exact (Option.some.inj hs).symm
        have heqc : scnt = c₀ := by
          rw [hc] at hc₁
          exact (Option.some.inj hc₁).symm
        have hfs : dictFind
            (dictSet st.school_sum v.school.name (matAdd ssum v.matrix)) n =
            some (matAdd ssum v.matrix) := by
          rw [hv]
          exact dictFind_dictSet_self st.school_sum n (matAdd ssum v.matrix)
        have hfc : dictFind
            (dictSet st.school_nonzero_count v.school.name
              (matAdd scnt (nonzeroIndicator v.matrix))) n =
            some (matAdd scnt (nonzeroIndicator v.matrix)) := by
          rw [hv]
          exact dictFind_dictSet_self st.school_nonzero_count n
            (matAdd scnt (nonzeroIndicator v.matrix))
        have hres := ih _ (matAdd ssum v.matrix)
          (matAdd scnt (nonzeroIndicator v.matrix)) h hfs hfc
        rw [heqs, heqc] at hres
        simpa using hres
      · rw [if_neg hv]
        refine ih _ m₀ c₀ h ?_ ?_
        · rw [dictFind_dictSet_ne _ _ _ _ (fun hk => hv hk.symm)]
          exact hm
        · rw [dictFind_dictSet_ne _ _ _ _ (fun hk => hv hk.symm)]
          exact hc

theorem accumVotes_keys (votes : List Vote) (st st₂ : AccState)
    (h : accumVotes votes st = .ok st₂) :
    dictKeys st₂.school_sum = dictKeys st.school_sum ∧
    dictKeys st₂.school_nonzero_count = dictKeys st.school_nonzero_count := by
  induction votes generalizing st with
  | nil =>
    obtain rfl : st = st₂ := Except.ok.inj h
    exact ⟨rfl, rfl⟩
  | cons v vs ih =>
    unfold accumVotes at h
    cases hacc : accumVote st v with
    | error e => rw [hacc] at h; simp at h
    | ok st₁ =>
      rw [hacc] at h
      obtain ⟨ssum, scnt, hs, hc, rfl⟩ := accumVote_ok st v st₁ hacc
      obtain ⟨h1, h2⟩ := ih _ h
      constructor
      · rw [h1]
        exact dictKeys_dictSet_of_has _ _ _
          (by rw [← dictFind_isSome, hs]; rfl)
      · rw [h2]
        exact dictKeys_dictSet_of_has _ _ _
          (by rw [← dictFind_isSome, hc]; rfl)

theorem accumVotes_ok_of_has (votes : List Vote) (st : AccState)
    (hall : ∀ v ∈ votes, dictHas st.school_sum v.school.name = true ∧
      dictHas st.school_nonzero_count v.school.name = true) :
    ∃ st₂, accumVotes votes st = .ok st₂ := by
  induction votes generalizing st with
  | nil => exact ⟨st, rfl⟩
  | cons v vs ih =>
    obtain ⟨hh1, hh2⟩ := hall v (List.mem_cons_self _ _)
    obtain ⟨ssum, hs⟩ : ∃ m, dictFind st.school_sum v.school.name = some m := by
      have := dictFind_isSome st.school_sum v.school.name
      rw [hh1] at this
      exact Option.isSome_iff_exists.mp this
    obtain ⟨scnt, hc⟩ : ∃ m, dictFind st.school_nonzero_count v.school.name = some m := by
      have := dictFind_isSome st.school_nonzero_count v.school.name
      rw [hh2] at this
      exact Option.isSome_iff_exists.mp this
    have hstep := accumVote_ok_intro st v ssum scnt hs hc
    obtain ⟨st₂, hrest⟩ := ih
      ⟨matAdd st.total_sum v.matrix,
       matAdd st.total_nonzero_count (nonzeroIndicator v.matrix),
       dictSet st.school_sum v.school.name (matAdd ssum v.matrix),
       dictSet st.school_nonzero_count v.school.name
         (matAdd scnt (nonzeroIndicator v.matrix))⟩
      (by
        intro w hw
        obtain ⟨hw1, hw2⟩ := hall w (List.mem_cons_of_mem _ hw)
        exact ⟨dictHas_dictSet_of_has _ _ _ _ hw1,
               dictHas_dictSet_of_has _ _ _ _ hw2⟩)
    refine ⟨st₂, ?_⟩
    unfold accumVotes
    rw [hstep]
    exact hrest

/-! ## Per-school averaging lemmas -/

theorem initSchoolMats_find_aux (schools : List School) (r c : ℕ) (n : String)
    (d : List (String × Mat)) :
    dictFind (schools.foldl (fun d s => dictSet d s.name (zeros r c)) d) n =
      if n ∈ schools.map School.name then some (zeros r c) else dictFind d n := by
  induction schools generalizing d with
  | nil => simp
  | cons s ss ih =>
    rw [List.foldl_cons, ih]
    by_cases hmem : n ∈ ss.map School.name
    · simp [hmem]
    · by_cases hn : s.name = n
      · simp [hmem, hn, dictFind_dictSet_self]
      · have hne : ¬ (n = s.name) := fun hc => hn hc.symm
        simp [hmem, hn, hne, dictFind_dictSet_ne _ _ _ _ hne]

theorem initSchoolMats_find (schools : List School) (r c : ℕ) (n : String) :
    dictFind (initSchoolMats schools r c) n =
      if n ∈ schools.map School.name then some (zeros r c) else none := by
  have := initSchoolMats_find_aux schools r c n []
  simpa [initSchoolMats, dictFind] using this

theorem dictSet_eq_append (d : List (String × α)) (k : String) (v : α)
    (h : dictHas d k = false) : dictSet d k v = d ++ [(k, v)] := by
  simp [dictSet, h]

theorem dictSet_mem (d : List (String × α)) (k : String) (v : α) (p : String × α)
    (hp : p ∈ dictSet d k v) : p ∈ d ∨ p = (k, v) := by
  unfold dictSet at hp
  by_cases hh : dictHas d k
  · rw [if_pos hh] at hp
    rw [List.mem_map] at hp
    obtain ⟨q, hq, hqe⟩ := hp
    by_cases hqk : q.1 = k
    · right
      rw [← hqe, if_pos hqk]
    · left
      rw [← hqe, if_neg hqk]
      exact hq
  · rw [if_neg hh] at hp
    rcases List.mem_append.mp hp with hc | hc
    · exact Or.inl hc
    · exact Or.inr (by simpa using hc)

theorem length_le_dictSet (d : List (String × α)) (k : String) (v : α) :
    d.length ≤ (dictSet d k v).length := by
  by_cases hh : dictHas d k
  · rw [length_dictSet_of_has d k v hh]
  · rw [length_dictSet_of_not d k v (by simpa using hh)]
    omega

theorem one_le_length_dictSet (d : List (String × α)) (k : String) (v : α) :
    1 ≤ (dictSet d k v).length := by
  by_cases hh : dictHas d k
  · rw [length_dictSet_of_has d k v hh]
    cases d with
    | nil => simp [dictHas] at hh
    | cons p d => simp
  · rw [length_dictSet_of_not d k v (by simpa using hh)]
    omega

theorem schoolAvg_foldl_skip (vr : InMemoryVoteRepository) (st : AccState)
    (schools : List School) (acc : List (String × Mat) × List (String × Mat))
    (h : ∀ s ∈ schools, ¬ 0 < vr.get_vote_count_by_school s) :
    schools.foldl (schoolAvgStep vr st) acc = acc := by
  induction schools generalizing acc with
  | nil => simp
  | cons s ss ih =>
    rw [List.foldl_cons]
    have hstep : schoolAvgStep vr st acc s = acc := by
      unfold schoolAvgStep
      rw [if_neg (h s (List.mem_cons_self _ _))]
    rw [hstep]
    exact ih acc (fun t ht => h t (List.mem_cons_of_mem _ ht))

theorem schoolAvg_foldl_len_mono (vr : InMemoryVoteRepository) (st : AccState)
    (schools : List School) (acc : List (String × Mat) × List (String × Mat)) :
    acc.1.length ≤ (schools.foldl (schoolAvgStep vr st) acc).1.length := by
  induction schools generalizing acc with
  | nil => simp
  | cons s ss ih =>
    rw [List.foldl_cons]
    refine le_trans ?_ (ih (schoolAvgStep vr st acc s))
    unfold schoolAvgStep
    by_cases hvc : 0 < vr.get_vote_count_by_school s
    · rw [if_pos hvc]
      exact length_le_dictSet _ _ _
    · rw [if_neg hvc]

theorem schoolAvg_foldl_ne_nil (vr : InMemoryVoteRepository) (st : AccState)
    (schools : List School) (acc : List (String × Mat) × List (String × Mat))
    (s : School) (hs : s ∈ schools) (hvc : 0 < vr.get_vote_count_by_school s) :
    (schools.foldl (schoolAvgStep vr st) acc).1 ≠ [] := by
  induction schools generalizing acc with
  | nil => simp at hs
  | cons t ss ih =>
    rw [List.foldl_cons]
    rcases List.mem_cons.mp hs with rfl | hmem
    · have h1 : 1 ≤ (schoolAvgStep vr st acc s).1.length := by
        unfold schoolAvgStep
        rw [if_pos hvc]
        exact one_le_length_dictSet _ _ _
      intro hc
      have hmono := schoolAvg_foldl_len_mono vr st ss (schoolAvgStep vr st acc s)
      rw [hc] at hmono
      simp only [List.length_nil, Nat.le_zero] at hmono
      omega
    · exact ih _ hmem

theorem schoolAvg_foldl_mem (vr : InMemoryVoteRepository) (st : AccState)
    (schools : List School) (acc : List (String × Mat) × List (String × Mat))
    (p : String × Mat) :
    (p ∈ (schools.foldl (schoolAvgStep vr st) acc).1 →
      p ∈ acc.1 ∨ ∃ s ∈ schools, 0 < vr.get_vote_count_by_school s ∧
        p = (s.name, scalarDiv (dictGetD st.school_sum s.name [])
          ((vr.get_vote_count_by_school s : ℚ)))) ∧
    (p ∈ (schools.foldl (schoolAvgStep vr st) acc).2 →
      p ∈ acc.2 ∨ ∃ s ∈ schools, 0 < vr.get_vote_count_by_school s ∧
        p = (s.name, divWhere (dictGetD st.school_sum s.name [])
          (dictGetD st.school_nonzero_count s.name []))) := by
  induction schools generalizing acc with
  | nil => simp
  | cons s ss ih =>
    rw [List.foldl_cons]
    constructor
    · intro hp
      rcases (ih (schoolAvgStep vr st acc s)).1 hp with hin | ⟨t, ht, hvt, hpe⟩
      · unfold schoolAvgStep at hin
        by_cases hvc : 0 < vr.get_vote_count_by_school s
        · rw [if_pos hvc] at hin
          rcases dictSet_mem _ _ _ p hin with hc | hc
          · exact Or.inl hc
          · exact Or.inr ⟨s, List.mem_cons_self _ _, hvc, hc⟩
        · rw [if_neg hvc] at hin
          exact Or.inl hin
      · exact Or.inr ⟨t, List.mem_cons_of_mem _ ht, hvt, hpe⟩
    · intro hp
      rcases (ih (schoolAvgStep vr st acc s)).2 hp with hin | ⟨t, ht, hvt, hpe⟩
      · unfold schoolAvgStep at hin
        by_cases hvc : 0 < vr.get_vote_count_by_school s
        · rw [if_pos hvc] at hin
          rcases dictSet_mem _ _ _ p hin with hc | hc
          · exact Or.inl hc
          · exact Or.inr ⟨s, List.mem_cons_self _ _, hvc, hc⟩
        · rw [if_neg hvc] at hin
          exact Or.inl hin
      · exact Or.inr ⟨t, List.mem_cons_of_mem _ ht, hvt, hpe⟩

theorem dictHas_append_false (d : List (String × α)) (k t : String) (v : α)
    (hd : dictHas d t = false) (hne : ¬ (k = t)) :
    dictHas (d ++ [(k, v)]) t = false := by
  simp only [dictHas, List.any_append, Bool.or_eq_false_iff]
  refine ⟨hd, ?_⟩
  simp [hne]

theorem schoolAvg_foldl (vr : InMemoryVoteRepository) (st : AccState)
    (schools : List School) (a₀ n₀ : List (String × Mat))
    (hnd : (schools.map School.name).Nodup)
    (hdisj : ∀ s ∈ schools, dictHas a₀ s.name = false ∧ dictHas n₀ s.name = false) :
    schools.foldl (schoolAvgStep vr st) (a₀, n₀) =
      (a₀ ++ (schools.filter
          (fun s => decide (0 < vr.get_vote_count_by_school s))).map
         (fun s => (s.name, scalarDiv (dictGetD st.school_sum s.name [])
            ((vr.get_vote_count_by_school s : ℚ)))),
       n₀ ++ (schools.filter
          (fun s => decide (0 < vr.get_vote_count_by_school s))).map
         (fun s => (s.name, divWhere (dictGetD st.school_sum s.name [])
            (dictGetD st.school_nonzero_count s.name [])))) := by
  induction schools generalizing a₀ n₀ with
  | nil => simp
  | cons s ss ih =>
    rw [List.map_cons, List.nodup_cons] at hnd
    obtain ⟨hnds, hndr⟩ := hnd
    obtain ⟨hd1, hd2⟩ := hdisj s (List.mem_cons_self _ _)
    rw [List.foldl_cons]
    by_cases hvc : 0 < vr.get_vote_count_by_school s
    · have hstep : schoolAvgStep vr st (a₀, n₀) s =
          (a₀ ++ [(s.name, scalarDiv (dictGetD st.school_sum s.name [])
             ((vr.get_vote_count_by_school s : ℚ)))],
           n₀ ++ [(s.name, divWhere (dictGetD st.school_sum s.name [])
             (dictGetD st.school_nonzero_count s.name []))]) := by
        unfold schoolAvgStep
        rw [if_pos hvc]
        rw [dictSet_eq_append _ _ _ hd1, dictSet_eq_append _ _ _ hd2]
      have hdisj₂ : ∀ t ∈ ss,
          dictHas (a₀ ++ [(s.name, scalarDiv (dictGetD st.school_sum s.name [])
             ((vr.get_vote_count_by_school s : ℚ)))]) t.name = false ∧
          dictHas (n₀ ++ [(s.name, divWhere (dictGetD st.school_sum s.name [])
             (dictGetD st.school_nonzero_count s.name []))]) t.name = false := by
        intro t ht
        have htm : t.name ∈ ss.map School.name := List.mem_map_of_mem _ ht
        have hne : ¬ (s.name = t.name) := fun hc => hnds (hc ▸ htm)
        obtain ⟨ht1, ht2⟩ := hdisj t (List.mem_cons_of_mem _ ht)
        exact ⟨dictHas_append_false _ _ _ _ ht1 hne,
               dictHas_append_false _ _ _ _ ht2 hne⟩
      rw [hstep, ih _ _ hndr hdisj₂]
      rw [List.filter_cons, if_pos (by simpa using hvc)]
      simp [List.append_assoc]
    · have hstep : schoolAvgStep vr st (a₀, n₀) s = (a₀, n₀) := by
        unfold schoolAvgStep
        rw [if_neg hvc]
      rw [hstep, ih _ _ hndr (fun t ht => hdisj t (List.mem_cons_of_mem _ ht))]
      rw [List.filter_cons, if_neg (by simpa using hvc)]

theorem dictFind_name_map_filter_none (ss : List School) (p : School → Bool)
    (g : School → Mat) (n : String) (hn : n ∉ ss.map School.name) :
    dictFind ((ss.filter p).map (fun t => (t.name, g t))) n = none := by
  apply dictFind_eq_none
  rw [← Bool.not_eq_true, dictHas_iff_mem]
  intro hmem
  simp only [dictKeys, List.map_map, List.mem_map] at hmem
  obtain ⟨t, ht, hte⟩ := hmem
  exact hn (hte ▸ List.mem_map_of_mem School.name (List.mem_of_mem_filter ht))

theorem dictFind_name_map_filter (schools : List School) (p : School → Bool)
    (g : School → Mat) (s : School)
    (hnd : (schools.map School.name).Nodup) (hs : s ∈ schools) :
    dictFind ((schools.filter p).map (fun t => (t.name, g t))) s.name =
      if p s then some (g s) else none := by
  induction schools with
  | nil => simp at hs
  | cons t ss ih =>
    rw [List.map_cons, List.nodup_cons] at hnd
    obtain ⟨hnds, hndr⟩ := hnd
    rcases List.mem_cons.mp hs with rfl | hmem
    · rw [List.filter_cons]
      by_cases hp : p s
      · rw [if_pos (by simpa using hp), if_pos hp, List.map_cons, dictFind_cons,
          if_pos rfl]
      · rw [if_neg (by simpa using hp), if_neg hp]
        exact dictFind_name_map_filter_none ss p g s.name hnds
    · have hne : ¬ (t.name = s.name) := by
        intro hc
        exact hnds (hc ▸ List.mem_map_of_mem School.name hmem)
      rw [List.filter_cons]
      by_cases hp : p t
      · rw [if_pos (by simpa using hp), List.map_cons, dictFind_cons,
          if_neg hne]
        exact ih hndr hmem
      · rw [if_neg (by simpa using hp)]
        exact ih hndr hmem

/-! ## Rect preservation and entry computations for the aggregates -/

theorem Rect_foldl_matAdd (ms : List Mat) (acc : Mat) (r c : ℕ)
    (hacc : Rect r c acc) (hms : ∀ m ∈ ms, Rect r c m) :
    Rect r c (ms.foldl matAdd acc) := by
  induction ms generalizing acc with
  | nil => exact hacc
  | cons m ms ih =>
    rw [List.foldl_cons]
    exact ih (matAdd acc m)
      (Rect_matZip _ _ _ r c hacc (hms m (List.mem_cons_self _ _)))
      (fun x hx => hms x (List.mem_cons_of_mem _ hx))

theorem votesFoldl_eq_map (votes : List Vote) (acc : Mat) :
    votes.foldl (fun a v => matAdd a v.matrix) acc =
      (votes.map Vote.matrix).foldl matAdd acc := by
  rw [List.foldl_map]

theorem indFoldl_eq_map (votes : List Vote) (acc : Mat) :
    votes.foldl (fun a v => matAdd a (nonzeroIndicator v.matrix)) acc =
      (votes.map (fun v => nonzeroIndicator v.matrix)).foldl matAdd acc := by
  rw [List.foldl_map]

theorem Rect_totalSumOf (votes : List Vote) (r c : ℕ)
    (hv : ∀ v ∈ votes, Rect r c v.matrix) :
    Rect r c (totalSumOf votes r c) := by
  unfold totalSumOf
  rw [votesFoldl_eq_map]
  refine Rect_foldl_matAdd _ _ r c (Rect_zeros r c) ?_
  intro m hm
  obtain ⟨v, hvmem, rfl⟩ := List.mem_map.mp hm
  exact hv v hvmem

theorem Rect_totalNonzeroCountOf (votes : List Vote) (r c : ℕ)
    (hv : ∀ v ∈ votes, Rect r c v.matrix) :
    Rect r c (totalNonzeroCountOf votes r c) := by
  unfold totalNonzeroCountOf
  rw [indFoldl_eq_map]
  refine Rect_foldl_matAdd _ _ r c (Rect_zeros r c) ?_
  intro m hm
  obtain ⟨v, hvmem, rfl⟩ := List.mem_map.mp hm
  exact Rect_matMap _ _ r c (hv v hvmem)

theorem entry_foldl_matAdd (ms : List Mat) (acc : Mat) (r c i j : ℕ)
    (hacc : Rect r c acc) (hms : ∀ m ∈ ms, Rect r c m)
    (hi : i < r) (hj : j < c) :
    entry (ms.foldl matAdd acc) i j =
      entry acc i j + (ms.map (fun m => entry m i j)).sum := by
  induction ms generalizing acc with
  | nil => simp
  | cons m ms ih =>
    rw [List.foldl_cons,
      ih (matAdd acc m)
        (Rect_matZip _ _ _ r c hacc (hms m (List.mem_cons_self _ _)))
        (fun x hx => hms x (List.mem_cons_of_mem _ hx))]
    rw [show matAdd acc m = matZip (fun x y => x + y) acc m from rfl]
    rw [entry_matZip _ _ _ r c i j hacc (hms m (List.mem_cons_self _ _)) hi hj]
    simp [add_assoc]

theorem entry_totalSumOf (votes : List Vote) (r c i j : ℕ)
    (hv : ∀ v ∈ votes, Rect r c v.matrix) (hi : i < r) (hj : j < c) :
    entry (totalSumOf votes r c) i j =
      (votes.map (fun v => entry v.matrix i j)).sum := by
  unfold totalSumOf
  rw [votesFoldl_eq_map]
  rw [entry_foldl_matAdd _ _ r c i j (Rect_zeros r c)
    (by
      intro m hm
      obtain ⟨v, hvmem, rfl⟩ := List.mem_map.mp hm
      exact hv v hvmem) hi hj]
  rw [entry_zeros]
  rw [List.map_map]
  simp only [zero_add]
  rfl

theorem entry_totalNonzeroCountOf (votes : List Vote) (r c i j : ℕ)
    (hv : ∀ v ∈ votes, Rect r c v.matrix) (hi : i < r) (hj : j < c) :
    entry (totalNonzeroCountOf votes r c) i j =
      (votes.map (fun v => if entry v.matrix i j ≠ 0 then (1 : ℚ) else 0)).sum := by
  unfold totalNonzeroCountOf
  rw [indFoldl_eq_map]
  rw [entry_foldl_matAdd _ _ r c i j (Rect_zeros r c)
    (by
      intro m hm
      obtain ⟨v, hvmem, rfl⟩ := List.mem_map.mp hm
      exact Rect_matMap _ _ r c (hv v hvmem)) hi hj]
  rw [entry_zeros]
  simp only [List.map_map, Function.comp, zero_add]
  congr 1
  apply List.map_congr_left
  intro v hvmem
  exact entry_matMap _ _ r c i j (hv v hvmem) hi hj

theorem entry_totalNonzeroCountOf_nonneg (votes : List Vote) (r c i j : ℕ)
    (hv : ∀ v ∈ votes, Rect r c v.matrix) (hi : i < r) (hj : j < c) :
    0 ≤ entry (totalNonzeroCountOf votes r c) i j := by
  rw [entry_totalNonzeroCountOf votes r c i j hv hi hj]
  apply List.sum_nonneg
  intro x hx
  obtain ⟨v, hvmem, rfl⟩ := List.mem_map.mp hx
  by_cases hz : entry v.matrix i j ≠ 0 <;> simp [hz]

theorem Rect_matMean (ms : List Mat) (r c : ℕ) (hne : ms ≠ [])
    (hms : ∀ m ∈ ms, Rect r c m) : Rect r c (matMean ms) := by
  cases ms with
  | nil => exact absurd rfl hne
  | cons m ms =>
    unfold matMean
    exact Rect_matMap _ _ r c
      (Rect_foldl_matAdd ms m r c (hms m (List.mem_cons_self _ _))
        (fun x hx => hms x (List.mem_cons_of_mem _ hx)))

theorem entry_matMean (ms : List Mat) (r c i j : ℕ) (hne : ms ≠ [])
    (hms : ∀ m ∈ ms, Rect r c m) (hi : i < r) (hj : j < c) :
    entry (matMean ms) i j =
      (ms.map (fun m => entry m i j)).sum / (ms.length : ℚ) := by
  cases ms with
  | nil => exact absurd rfl hne
  | cons m ms =>
    unfold matMean scalarDiv
    rw [entry_matMap _ _ r c i j
      (Rect_foldl_matAdd ms m r c (hms m (List.mem_cons_self _ _))
        (fun x hx => hms x (List.mem_cons_of_mem _ hx))) hi hj]
    rw [entry_foldl_matAdd ms m r c i j (hms m (List.mem_cons_self _ _))
      (fun x hx => hms x (List.mem_cons_of_mem _ hx)) hi hj]
    simp

/-! ## Inversion of `analyze` -/

theorem analyze_ok_elim (vr : InMemoryVoteRepository) (schools : List School)
    (awards : List Award) (res : AnalysisResults)
    (h : analyze vr schools awards = .ok res) :
    ∃ r c st,
      matrixSize awards = some (r, c) ∧
      accumVotes vr.get_all_votes
        ⟨zeros r c, zeros r c, initSchoolMats schools r c,
         initSchoolMats schools r c⟩ = .ok st ∧
      (schools.foldl (schoolAvgStep vr st) ([], [])).1 ≠ [] ∧
      res = { total_avg := scalarDiv st.total_sum ((vr.get_all_votes).length : ℚ)
              total_nonzero_avg := divWhere st.total_sum st.total_nonzero_count
              school_avg := (schools.foldl (schoolAvgStep vr st) ([], [])).1
              school_nonzero_avg := (schools.foldl (schoolAvgStep vr st) ([], [])).2
              total_school_avg :=
                matMean (dictValues (schools.foldl (schoolAvgStep vr st) ([], [])).1)
              total_school_nonzero_avg :=
                matMean (dictValues
                  (schools.foldl (schoolAvgStep vr st) ([], [])).2) } := by
  unfold analyze at h
  split at h
  · exact absurd h (by simp)
  · rename_i r c heq
    split at h
    · exact absurd h (by simp)
    · rename_i st hacc
      split at h
      · exact absurd h (by simp)
      · rename_i m ms hdv
        refine ⟨r, c, st, heq, hacc, ?_, ?_⟩
        · intro hc
          rw [hc] at hdv
          simp [dictValues] at hdv
        · rw [hdv]
          exact (Except.ok.inj h).symm

theorem analyze_ok_intro (vr : InMemoryVoteRepository) (schools : List School)
    (awards : List Award) (r c : ℕ) (st : AccState)
    (hms : matrixSize awards = some (r, c))
    (hacc : accumVotes vr.get_all_votes
      ⟨zeros r c, zeros r c, initSchoolMats schools r c,
       initSchoolMats schools r c⟩ = .ok st)
    (hne : (schools.foldl (schoolAvgStep vr st) ([], [])).1 ≠ []) :
    analyze vr schools awards =
      .ok { total_avg := scalarDiv st.total_sum ((vr.get_all_votes).length : ℚ)
            total_nonzero_avg := divWhere st.total_sum st.total_nonzero_count
            school_avg := (schools.foldl (schoolAvgStep vr st) ([], [])).1
            school_nonzero_avg := (schools.foldl (schoolAvgStep vr st) ([], [])).2
            total_school_avg :=
              matMean (dictValues (schools.foldl (schoolAvgStep vr st) ([], [])).1)
            total_school_nonzero_avg :=
              matMean (dictValues
                (schools.foldl (schoolAvgStep vr st) ([], [])).2) } := by
  unfold analyze
  rw [hms]
  simp only [hacc]
  cases hdv : dictValues (schools.foldl (schoolAvgStep vr st) ([], [])).1 with
  | nil =>
    exact absurd (by simpa [dictValues] using hdv) hne
  | cons m ms =>
    simp only [hdv]

theorem analyze_error_of_no_votes (vr : InMemoryVoteRepository)
    (schools : List School) (awards : List Award) (r c : ℕ)
    (hms : matrixSize awards = some (r, c))
    (hempty : vr.get_all_votes = [])
    (hcnt : ∀ s ∈ schools, vr.get_vote_count_by_school s = 0) :
    analyze vr schools awards = .error "need at least one array to stack" := by
  unfold analyze
  rw [hms, hempty]
  have hacc : accumVotes []
      (⟨zeros r c, zeros r c, initSchoolMats schools r c,
        initSchoolMats schools r c⟩ : AccState) =
      .ok ⟨zeros r c, zeros r c, initSchoolMats schools r c,
        initSchoolMats schools r c⟩ := rfl
  simp only [hacc]
  have hskip := schoolAvg_foldl_skip vr
    ⟨zeros r c, zeros r c, initSchoolMats schools r c,
     initSchoolMats schools r c⟩ schools ([], [])
    (by
      intro s hs
      rw [hcnt s hs]
      omega)
  rw [hskip]
  rfl

/-! ## Coherence lemmas -/

theorem coherent_votes_by_school (vr : InMemoryVoteRepository)
    (hco : Coherent vr) (n : String) :
    dictGetD vr.school_votes n [] = votesOfSchool vr.get_all_votes n := by
  obtain ⟨h1, h2⟩ := hco
  cases hf : dictFind vr.school_votes n with
  | some l =>
    have hm := dictFind_mem _ _ _ hf
    have := h1 (n, l) hm
    simpa [dictGetD, hf] using this
  | none =>
    have hnil : votesOfSchool vr.get_all_votes n = [] := by
      unfold votesOfSchool
      rw [List.filter_eq_nil]
      intro v hv
      simp only [decide_eq_true_eq]
      intro hc
      have hhas := h2 v hv
      rw [hc] at hhas
      have hs := dictFind_isSome vr.school_votes n
      rw [hf, hhas] at hs
      simp at hs
    simp [dictGetD, hf, hnil]

theorem coherent_count (vr : InMemoryVoteRepository) (hco : Coherent vr)
    (s : School) :
    vr.get_vote_count_by_school s =
      (votesOfSchool vr.get_all_votes s.name).length := by
  unfold InMemoryVoteRepository.get_vote_count_by_school
  rw [coherent_votes_by_school vr hco s.name]

/-! ## Claim theorems -/

/-- Claim C2: in the `AnalysisResults` produced by `analyze`, every cell of
`total_nonzero_avg` is 0 where the non-zero count is 0 (the zero-fill
convention of `np.divide(..., out=zeros, where=count > 0)`), and equals
`total_sum / total_nonzero_count` elsewhere; the zero case is exactly 0 and
`analyze` returns without error. -/
theorem C2_nonzero_avg_zero_fill (vr : InMemoryVoteRepository)
    (schools : List School) (awards : List Award) (res : AnalysisResults)
    (r c i j : ℕ)
    (hok : analyze vr schools awards = .ok res)
    (hsz : matrixSize awards = some (r, c))
    (hrect : ∀ v ∈ vr.get_all_votes, Rect r c v.matrix)
    (hi : i < r) (hj : j < c) :
    (entry (totalNonzeroCountOf vr.get_all_votes r c) i j = 0 →
      entry res.total_nonzero_avg i j = 0) ∧
    (entry (totalNonzeroCountOf vr.get_all_votes r c) i j ≠ 0 →
      entry res.total_nonzero_avg i j =
        entry (totalSumOf vr.get_all_votes r c) i j /
          entry (totalNonzeroCountOf vr.get_all_votes r c) i j) := by
  obtain ⟨r₂, c₂, st, hms, hacc, hne, hres⟩ :=
    analyze_ok_elim vr schools awards res hok
  rw [hms] at hsz
  have hpair := Option.some.inj hsz
  have hrr : r₂ = r := congrArg Prod.fst hpair
  have hcc : c₂ = c := congrArg Prod.snd hpair
  rw [hrr, hcc] at hacc
  obtain ⟨ht1, ht2⟩ := accumVotes_totals _ _ _ hacc
  have hts : st.total_sum = totalSumOf vr.get_all_votes r c := ht1
  have htc : st.total_nonzero_count = totalNonzeroCountOf vr.get_all_votes r c :=
    ht2
  have hfield : res.total_nonzero_avg =
      divWhere st.total_sum st.total_nonzero_count := by rw [hres]
  rw [hfield, hts, htc]
  have hsum_rect := Rect_totalSumOf vr.get_all_votes r c hrect
  have hcnt_rect := Rect_totalNonzeroCountOf vr.get_all_votes r c hrect
  unfold divWhere
  rw [entry_matZip _ _ _ r c i j hsum_rect hcnt_rect hi hj]
  constructor
  · intro hzero
    rw [hzero]
    simp
  · intro hnz
    have hpos : 0 < entry (totalNonzeroCountOf vr.get_all_votes r c) i j :=
      lt_of_le_of_ne
        (entry_totalNonzeroCountOf_nonneg vr.get_all_votes r c i j hrect hi hj)
        (Ne.symm hnz)
    rw [if_pos hpos]

/-- Witness for C2 at the concrete §8 scenario, cell (0, 0). -/
theorem C2_nonzero_avg_zero_fill_witness :
    (entry (totalNonzeroCountOf scenarioVr.get_all_votes 1 2) 0 0 = 0 →
      entry scenarioRes.total_nonzero_avg 0 0 = 0) ∧
    (entry (totalNonzeroCountOf scenarioVr.get_all_votes 1 2) 0 0 ≠ 0 →
      entry scenarioRes.total_nonzero_avg 0 0 =
        entry (totalSumOf scenarioVr.get_all_votes 1 2) 0 0 /
          entry (totalNonzeroCountOf scenarioVr.get_all_votes 1 2) 0 0) :=
  C2_nonzero_avg_zero_fill scenarioVr scenarioSchools scenarioAwards
    scenarioRes 1 2 0 0 scenario_analyze (by decide) (by decide)
    (by decide) (by decide)

theorem Rect_schoolSumOf (votes : List Vote) (n : String) (r c : ℕ)
    (hv : ∀ v ∈ votes, Rect r c v.matrix) :
    Rect r c (schoolSumOf votes n r c) :=
  Rect_totalSumOf _ r c (fun v hvm => hv v (List.mem_of_mem_filter hvm))

theorem Rect_schoolNonzeroCountOf (votes : List Vote) (n : String) (r c : ℕ)
    (hv : ∀ v ∈ votes, Rect r c v.matrix) :
    Rect r c (schoolNonzeroCountOf votes n r c) :=
  Rect_totalNonzeroCountOf _ r c (fun v hvm => hv v (List.mem_of_mem_filter hvm))

theorem analyze_st_find (vr : InMemoryVoteRepository) (schools : List School)
    (r c : ℕ) (st : AccState)
    (hacc : accumVotes vr.get_all_votes
      ⟨zeros r c, zeros r c, initSchoolMats schools r c,
       initSchoolMats schools r c⟩ = .ok st)
    (n : String) (hs : n ∈ schools.map School.name) :
    dictFind st.school_sum n = some (schoolSumOf vr.get_all_votes n r c) ∧
    dictFind st.school_nonzero_count n =
      some (schoolNonzeroCountOf vr.get_all_votes n r c) := by
  have hinit := initSchoolMats_find schools r c n
  rw [if_pos hs] at hinit
  exact accumVotes_find _ _ _ n (zeros r c) (zeros r c) hacc hinit hinit

theorem schoolAvg_values_rect (vr : InMemoryVoteRepository)
    (schools : List School) (r c : ℕ) (st : AccState)
    (hacc : accumVotes vr.get_all_votes
      ⟨zeros r c, zeros r c, initSchoolMats schools r c,
       initSchoolMats schools r c⟩ = .ok st)
    (hrect : ∀ v ∈ vr.get_all_votes, Rect r c v.matrix) :
    (∀ p ∈ (schools.foldl (schoolAvgStep vr st) ([], [])).1, Rect r c p.2) ∧
    (∀ p ∈ (schools.foldl (schoolAvgStep vr st) ([], [])).2, Rect r c p.2) := by
  constructor
  · intro p hp
    rcases (schoolAvg_foldl_mem vr st schools ([], []) p).1 hp with
      hc | ⟨t, hsm, _, hpe⟩
    · simp at hc
    · obtain ⟨hfs, _⟩ := analyze_st_find vr schools r c st hacc t.name
        (List.mem_map_of_mem School.name hsm)
      rw [hpe]
      have hgd : dictGetD st.school_sum t.name [] =
          schoolSumOf vr.get_all_votes t.name r c := by
        simp [dictGetD, hfs]
      simp only [hgd]
      exact Rect_matMap _ _ r c (Rect_schoolSumOf _ _ r c hrect)
  · intro p hp
    rcases (schoolAvg_foldl_mem vr st schools ([], []) p).2 hp with
      hc | ⟨t, hsm, _, hpe⟩
    · simp at hc
    · obtain ⟨hfs, hfc⟩ := analyze_st_find vr schools r c st hacc t.name
        (List.mem_map_of_mem School.name hsm)
      rw [hpe]
      have hgd : dictGetD st.school_sum t.name [] =
          schoolSumOf vr.get_all_votes t.name r c := by
        simp [dictGetD, hfs]
      have hgd₂ : dictGetD st.school_nonzero_count t.name [] =
          schoolNonzeroCountOf vr.get_all_votes t.name r c := by
        simp [dictGetD, hfc]
      simp only [hgd, hgd₂]
      exact Rect_matZip _ _ _ r c (Rect_schoolSumOf _ _ r c hrect)
        (Rect_schoolNonzeroCountOf _ _ r c hrect)

theorem dictHas_eq_of_keys_eq (a b : List (String × α)) (k : String)
    (h : dictKeys a = dictKeys b) : dictHas a k = dictHas b k := by
  have hiff : dictHas a k = true ↔ dictHas b k = true := by
    rw [dictHas_iff_mem, dictHas_iff_mem, h]
  cases hb : dictHas b k
  · cases ha : dictHas a k
    · rfl
    · exfalso
      have hht := hiff.mp ha
      rw [hb] at hht
      simp at hht
  · exact hiff.mpr hb

theorem schoolAvg_foldl_keys_eq (vr : InMemoryVoteRepository) (st : AccState)
    (schools : List School) (acc : List (String × Mat) × List (String × Mat))
    (h : dictKeys acc.1 = dictKeys acc.2) :
    dictKeys (schools.foldl (schoolAvgStep vr st) acc).1 =
      dictKeys (schools.foldl (schoolAvgStep vr st) acc).2 := by
  induction schools generalizing acc with
  | nil => exact h
  | cons s ss ih =>
    rw [List.foldl_cons]
    apply ih
    unfold schoolAvgStep
    by_cases hvc : 0 < vr.get_vote_count_by_school s
    · rw [if_pos hvc]
      cases hh : dictHas acc.1 s.name
      · rw [dictKeys_dictSet_of_not _ _ _ hh,
          dictKeys_dictSet_of_not _ _ _
            ((dictHas_eq_of_keys_eq _ _ _ h).symm.trans hh), h]
      · rw [dictKeys_dictSet_of_has _ _ _ hh,
          dictKeys_dictSet_of_has _ _ _
            ((dictHas_eq_of_keys_eq _ _ _ h).symm.trans hh), h]
    · rw [if_neg hvc]
      exact h

theorem length_eq_keys_length (d : List (String × α)) :
    d.length = (dictKeys d).length := by
  simp [dictKeys]

theorem matrixSize_fst (awards : List Award) (r c : ℕ)
    (h : matrixSize awards = some (r, c)) : r = awards.length := by
  cases awards with
  | nil => simp [matrixSize] at h
  | cons a rest =>
    unfold matrixSize at h
    have := Option.some.inj h
    exact (congrArg Prod.fst this).symm

/-- Claim C3: `total_school_avg` at every cell is the plain arithmetic mean of
the included schools' per-school averages at that cell — one equal-weight
term per included school, no re-weighting by vote count; likewise
`total_school_nonzero_avg` over the per-school non-zero averages. -/
theorem C3_total_school_avg_unweighted_mean (vr : InMemoryVoteRepository)
    (schools : List School) (awards : List Award) (res : AnalysisResults)
    (r c i j : ℕ)
    (hok : analyze vr schools awards = .ok res)
    (hsz : matrixSize awards = some (r, c))
    (hrect : ∀ v ∈ vr.get_all_votes, Rect r c v.matrix)
    (hi : i < r) (hj : j < c) :
    entry res.total_school_avg i j =
      (res.school_avg.map (fun p => entry p.2 i j)).sum /
        (res.school_avg.length : ℚ) ∧
    entry res.total_school_nonzero_avg i j =
      (res.school_nonzero_avg.map (fun p => entry p.2 i j)).sum /
        (res.school_nonzero_avg.length : ℚ) := by
  obtain ⟨r₂, c₂, st, hms, hacc, hne, hres⟩ :=
    analyze_ok_elim vr schools awards res hok
  rw [hms] at hsz
  have hpair := Option.some.inj hsz
  have hrr : r₂ = r := congrArg Prod.fst hpair
  have hcc : c₂ = c := congrArg Prod.snd hpair
  rw [hrr, hcc] at hacc
  obtain ⟨hrect₁, hrect₂⟩ := schoolAvg_values_rect vr schools r c st hacc hrect
  have hne₂ : (schools.foldl (schoolAvgStep vr st) ([], [])).2 ≠ [] := by
    intro hc
    apply hne
    have hk := schoolAvg_foldl_keys_eq vr st schools ([], []) rfl
    rw [hc] at hk
    have hlen := length_eq_keys_length
      (schools.foldl (schoolAvgStep vr st) ([], [])).1
    rw [hk] at hlen
    simp only [dictKeys, List.map_nil, List.length_nil] at hlen
    exact List.length_eq_zero.mp hlen
  constructor
  · have htsa : res.total_school_avg =
        matMean (dictValues (schools.foldl (schoolAvgStep vr st) ([], [])).1) := by
      rw [hres]
    have hsa : res.school_avg =
        (schools.foldl (schoolAvgStep vr st) ([], [])).1 := by
      rw [hres]
    rw [htsa, hsa]
    rw [entry_matMean _ r c i j
      (by simpa [dictValues] using hne)
      (by
        intro m hm
        simp only [dictValues, List.mem_map] at hm
        obtain ⟨p, hp, rfl⟩ := hm
        exact hrect₁ p hp) hi hj]
    simp only [dictValues, List.map_map, List.length_map]
    rfl
  · have htsn : res.total_school_nonzero_avg =
        matMean (dictValues (schools.foldl (schoolAvgStep vr st) ([], [])).2) := by
      rw [hres]
    have hsn : res.school_nonzero_avg =
        (schools.foldl (schoolAvgStep vr st) ([], [])).2 := by
      rw [hres]
    rw [htsn, hsn]
    rw [entry_matMean _ r c i j
      (by simpa [dictValues] using hne₂)
      (by
        intro m hm
        simp only [dictValues, List.mem_map] at hm
        obtain ⟨p, hp, rfl⟩ := hm
        exact hrect₂ p hp) hi hj]
    simp only [dictValues, List.map_map, List.length_map]
    rfl

/-- Witness for C3 at the concrete §8 scenario, cell (0, 1). -/
theorem C3_total_school_avg_unweighted_mean_witness :
    entry scenarioRes.total_school_avg 0 1 =
      (scenarioRes.school_avg.map (fun p => entry p.2 0 1)).sum /
        (scenarioRes.school_avg.length : ℚ) ∧
    entry scenarioRes.total_school_nonzero_avg 0 1 =
      (scenarioRes.school_nonzero_avg.map (fun p => entry p.2 0 1)).sum /
        (scenarioRes.school_nonzero_avg.length : ℚ) :=
  C3_total_school_avg_unweighted_mean scenarioVr scenarioSchools
    scenarioAwards scenarioRes 1 2 0 1 scenario_analyze (by decide)
    (by decide) (by decide) (by decide)

/-- Claim C10: every matrix in an `AnalysisResults` produced by `analyze` — the
four global matrices and every per-school matrix — has the canonical shape
(number of awards, maximum work-count across awards), and `school_avg` and
`school_nonzero_avg` index exactly the same schools. -/
theorem C10_result_shapes (vr : InMemoryVoteRepository)
    (schools : List School) (awards : List Award) (res : AnalysisResults)
    (r c : ℕ)
    (hok : analyze vr schools awards = .ok res)
    (hsz : matrixSize awards = some (r, c))
    (hrect : ∀ v ∈ vr.get_all_votes, Rect r c v.matrix) :
    r = awards.length ∧
    Rect r c res.total_avg ∧ Rect r c res.total_nonzero_avg ∧
    Rect r c res.total_school_avg ∧ Rect r c res.total_school_nonzero_avg ∧
    (∀ p ∈ res.school_avg, Rect r c p.2) ∧
    (∀ p ∈ res.school_nonzero_avg, Rect r c p.2) ∧
    dictKeys res.school_avg = dictKeys res.school_nonzero_avg := by
  obtain ⟨r₂, c₂, st, hms, hacc, hne, hres⟩ :=
    analyze_ok_elim vr schools awards res hok
  rw [hms] at hsz
  have hpair := Option.some.inj hsz
  have hrr : r₂ = r := congrArg Prod.fst hpair
  have hcc : c₂ = c := congrArg Prod.snd hpair
  rw [hrr, hcc] at hacc hms
  obtain ⟨ht1, ht2⟩ := accumVotes_totals _ _ _ hacc
  have hts : st.total_sum = totalSumOf vr.get_all_votes r c := ht1
  have htc : st.total_nonzero_count =
      totalNonzeroCountOf vr.get_all_votes r c := ht2
  obtain ⟨hrect₁, hrect₂⟩ := schoolAvg_values_rect vr schools r c st hacc hrect
  have hne₂ : (schools.foldl (schoolAvgStep vr st) ([], [])).2 ≠ [] := by
    intro hc
    apply hne
    have hk := schoolAvg_foldl_keys_eq vr st schools ([], []) rfl
    rw [hc] at hk
    have hlen := length_eq_keys_length
      (schools.foldl (schoolAvgStep vr st) ([], [])).1
    rw [hk] at hlen
    simp only [dictKeys, List.map_nil, List.length_nil] at hlen
    exact List.length_eq_zero.mp hlen
  refine ⟨matrixSize_fst awards r c hms, ?_, ?_, ?_, ?_, ?_, ?_, ?_⟩
  · have hta : res.total_avg =
        scalarDiv st.total_sum ((vr.get_all_votes).length : ℚ) := by rw [hres]
    rw [hta, hts]
    exact Rect_matMap _ _ r c (Rect_totalSumOf _ r c hrect)
  · have htn : res.total_nonzero_avg =
        divWhere st.total_sum st.total_nonzero_count := by rw [hres]
    rw [htn, hts, htc]
    exact Rect_matZip _ _ _ r c (Rect_totalSumOf _ r c hrect)
      (Rect_totalNonzeroCountOf _ r c hrect)
  · have htsa : res.total_school_avg =
        matMean (dictValues (schools.foldl (schoolAvgStep vr st) ([], [])).1) := by
      rw [hres]
    rw [htsa]
    refine Rect_matMean _ r c (by simpa [dictValues] using hne) ?_
    intro m hm
    simp only [dictValues, List.mem_map] at hm
    obtain ⟨p, hp, rfl⟩ := hm
    exact hrect₁ p hp
  · have htsn : res.total_school_nonzero_avg =
        matMean (dictValues (schools.foldl (schoolAvgStep vr st) ([], [])).2) := by
      rw [hres]
    rw [htsn]
    refine Rect_matMean _ r c (by simpa [dictValues] using hne₂) ?_
    intro m hm
    simp only [dictValues, List.mem_map] at hm
    obtain ⟨p, hp, rfl⟩ := hm
    exact hrect₂ p hp
  · have hsa : res.school_avg =
        (schools.foldl (schoolAvgStep vr st) ([], [])).1 := by rw [hres]
    rw [hsa]
    exact hrect₁
  · have hsn : res.school_nonzero_avg =
        (schools.foldl (schoolAvgStep vr st) ([], [])).2 := by rw [hres]
    rw [hsn]
    exact hrect₂
  · have hsa : res.school_avg =
        (schools.foldl (schoolAvgStep vr st) ([], [])).1 := by rw [hres]
    have hsn : res.school_nonzero_avg =
        (schools.foldl (schoolAvgStep vr st) ([], [])).2 := by rw [hres]
    rw [hsa, hsn]
    exact schoolAvg_foldl_keys_eq vr st schools ([], []) rfl

/-- Witness for C10 at the concrete §8 scenario. -/
theorem C10_result_shapes_witness :
    1 = scenarioAwards.length ∧
    Rect 1 2 scenarioRes.total_avg ∧ Rect 1 2 scenarioRes.total_nonzero_avg ∧
    Rect 1 2 scenarioRes.total_school_avg ∧
    Rect 1 2 scenarioRes.total_school_nonzero_avg ∧
    (∀ p ∈ scenarioRes.school_avg, Rect 1 2 p.2) ∧
    (∀ p ∈ scenarioRes.school_nonzero_avg, Rect 1 2 p.2) ∧
    dictKeys scenarioRes.school_avg = dictKeys scenarioRes.school_nonzero_avg :=
  C10_result_shapes scenarioVr scenarioSchools scenarioAwards scenarioRes 1 2
    scenario_analyze (by decide) (by decide)

/-- Claim C4: the `school_avg` mapping of an `analyze` result has an entry for
a school iff that school has at least one vote; each entry equals that
school's vote-matrix sum divided by its vote count; schools with zero votes
contribute no entry, so the number of entries is the number of schools with
at least one vote. -/
theorem C4_school_avg_inclusion (vr : InMemoryVoteRepository)
    (schools : List School) (awards : List Award) (res : AnalysisResults)
    (r c : ℕ)
    (hok : analyze vr schools awards = .ok res)
    (hsz : matrixSize awards = some (r, c))
    (hco : Coherent vr)
    (hnd : (schools.map School.name).Nodup) :
    (∀ s ∈ schools,
      (dictHas res.school_avg s.name = true ↔
        votesOfSchool vr.get_all_votes s.name ≠ []) ∧
      (votesOfSchool vr.get_all_votes s.name ≠ [] →
        dictFind res.school_avg s.name =
          some (scalarDiv (schoolSumOf vr.get_all_votes s.name r c)
            ((votesOfSchool vr.get_all_votes s.name).length : ℚ)))) ∧
    res.school_avg.length =
      (schools.filter
        (fun s => decide (votesOfSchool vr.get_all_votes s.name ≠ []))).length := by
  obtain ⟨r₂, c₂, st, hms, hacc, hne, hres⟩ :=
    analyze_ok_elim vr schools awards res hok
  rw [hms] at hsz
  have hpair := Option.some.inj hsz
  have hrr : r₂ = r := congrArg Prod.fst hpair
  have hcc : c₂ = c := congrArg Prod.snd hpair
  rw [hrr, hcc] at hacc
  have hsa : res.school_avg =
      (schools.foldl (schoolAvgStep vr st) ([], [])).1 := by rw [hres]
  have hfold := schoolAvg_foldl vr st schools [] [] hnd
    (fun s _ => ⟨rfl, rfl⟩)
  have hsa₂ : res.school_avg =
      (schools.filter (fun s => decide (0 < vr.get_vote_count_by_school s))).map
        (fun s => (s.name, scalarDiv (dictGetD st.school_sum s.name [])
          ((vr.get_vote_count_by_school s : ℚ)))) := by
    rw [hsa, hfold]
    simp
  have hcnt : ∀ s : School, vr.get_vote_count_by_school s =
      (votesOfSchool vr.get_all_votes s.name).length :=
    fun s => coherent_count vr hco s
  have hpq : ∀ s ∈ schools,
      decide (0 < vr.get_vote_count_by_school s) =
        decide (votesOfSchool vr.get_all_votes s.name ≠ []) := by
    intro s _
    rw [hcnt s]
    by_cases hv : votesOfSchool vr.get_all_votes s.name = []
    · simp [hv]
    · simp [hv, List.length_pos.mpr hv]
  constructor
  · intro s hs
    have hfind := dictFind_name_map_filter schools
      (fun s => decide (0 < vr.get_vote_count_by_school s))
      (fun t => scalarDiv (dictGetD st.school_sum t.name [])
        ((vr.get_vote_count_by_school t : ℚ))) s hnd hs
    rw [← hsa₂] at hfind
    have hgd : dictGetD st.school_sum s.name [] =
        schoolSumOf vr.get_all_votes s.name r c := by
      obtain ⟨hfs, _⟩ := analyze_st_find vr schools r c st hacc s.name
        (List.mem_map_of_mem School.name hs)
      simp [dictGetD, hfs]
    constructor
    · rw [← dictFind_isSome, hfind]
      by_cases hv : votesOfSchool vr.get_all_votes s.name = []
      · rw [if_neg (by simp [hcnt s, hv])]
        simp [hv]
      · rw [if_pos (by simp [hcnt s, List.length_pos.mpr hv])]
        simp [hv]
    · intro hv
      rw [hfind, if_pos (by simp [hcnt s, List.length_pos.mpr hv])]
      simp only [hgd, hcnt s]
  · rw [hsa₂, List.length_map]
    congr 1
    apply List.filter_congr
    intro s hs
    exact hpq s hs

/-- Witness for C4 at the concrete §8 scenario. -/
theorem C4_school_avg_inclusion_witness :
    (∀ s ∈ scenarioSchools,
      (dictHas scenarioRes.school_avg s.name = true ↔
        votesOfSchool scenarioVr.get_all_votes s.name ≠ []) ∧
      (votesOfSchool scenarioVr.get_all_votes s.name ≠ [] →
        dictFind scenarioRes.school_avg s.name =
          some (scalarDiv (schoolSumOf scenarioVr.get_all_votes s.name 1 2)
            ((votesOfSchool scenarioVr.get_all_votes s.name).length : ℚ)))) ∧
    scenarioRes.school_avg.length =
      (scenarioSchools.filter
        (fun s => decide (votesOfSchool scenarioVr.get_all_votes s.name ≠ []))).length :=
  C4_school_avg_inclusion scenarioVr scenarioSchools scenarioAwards
    scenarioRes 1 2 scenario_analyze (by decide) scenario_coherent (by decide)

/-- Claim C6 (counterexample to the claim as stated): with one award, one
school and zero votes, `analyze` raises — `np.stack` on the empty per-school
average list fails — rather than guarding the division and reporting a zero
matrix with a warning. -/
theorem C6_zero_vote_counterexample :
    analyze InMemoryVoteRepository.empty [schoolX] scenarioAwards =
      .error "need at least one array to stack" := by
  decide

/-- Claim C6 (amended): `analyze` does not guard the zero-vote case: with a
non-empty award set and a coherent repository whose votes all come from
known schools, an empty vote set makes `analyze` raise at the `np.stack` of
the empty per-school list (no zero-matrix fallback, no recorded warning);
with at least one vote, `analyze` returns and the global average equals
`total_sum / total vote count` element-wise. -/
theorem C6_zero_vote_behavior (vr : InMemoryVoteRepository)
    (schools : List School) (awards : List Award) (r c : ℕ)
    (hsz : matrixSize awards = some (r, c))
    (hco : Coherent vr)
    (hschools : ∀ v ∈ vr.get_all_votes, v.school.name ∈ schools.map School.name)
    (hrect : ∀ v ∈ vr.get_all_votes, Rect r c v.matrix) :
    (vr.get_all_votes = [] →
      analyze vr schools awards = .error "need at least one array to stack") ∧
    (vr.get_all_votes ≠ [] →
      ∃ res, analyze vr schools awards = .ok res ∧
        ∀ i j, i < r → j < c →
          entry res.total_avg i j =
            entry (totalSumOf vr.get_all_votes r c) i j /
              ((vr.get_all_votes).length : ℚ)) := by
  constructor
  · intro hempty
    refine analyze_error_of_no_votes vr schools awards r c hsz hempty ?_
    intro s _
    rw [coherent_count vr hco s, hempty]
    rfl
  · intro hnev
    obtain ⟨st, hacc⟩ := accumVotes_ok_of_has vr.get_all_votes
      ⟨zeros r c, zeros r c, initSchoolMats schools r c,
       initSchoolMats schools r c⟩
      (by
        intro v hv
        have hmem := hschools v hv
        have hinit := initSchoolMats_find schools r c v.school.name
        rw [if_pos hmem] at hinit
        constructor
        · show dictHas (initSchoolMats schools r c) v.school.name = true
          rw [← dictFind_isSome, hinit]
          rfl
        · show dictHas (initSchoolMats schools r c) v.school.name = true
          rw [← dictFind_isSome, hinit]
          rfl)
    obtain ⟨v₀, rest, hv₀⟩ : ∃ v₀ rest, vr.get_all_votes = v₀ :: rest := by
      cases hvv : vr.get_all_votes with
      | nil => exact absurd hvv hnev
      | cons a l => exact ⟨a, l, rfl⟩
    obtain ⟨s, hs, hsn⟩ := List.mem_map.mp
      (hschools v₀ (by rw [hv₀]; exact List.mem_cons_self _ _))
    have hvc : 0 < vr.get_vote_count_by_school s := by
      rw [coherent_count vr hco s]
      apply List.length_pos.mpr
      intro hc
      have : v₀ ∈ votesOfSchool vr.get_all_votes s.name := by
        unfold votesOfSchool
        rw [List.mem_filter]
        refine ⟨by rw [hv₀]; exact List.mem_cons_self _ _, by simp [hsn]⟩
      rw [hc] at this
      simp at this
    have hnel := schoolAvg_foldl_ne_nil vr st schools ([], []) s hs hvc
    refine ⟨_, analyze_ok_intro vr schools awards r c st hsz hacc hnel, ?_⟩
    intro i j hi hj
    obtain ⟨ht1, _⟩ := accumVotes_totals _ _ _ hacc
    have hts : st.total_sum = totalSumOf vr.get_all_votes r c := ht1
    show entry (scalarDiv st.total_sum ((vr.get_all_votes).length : ℚ)) i j = _
    rw [hts]
    unfold scalarDiv
    rw [entry_matMap _ _ r c i j (Rect_totalSumOf _ r c hrect) hi hj]

/-- Witness for C6 at the concrete §8 scenario (two votes present). -/
theorem C6_zero_vote_behavior_witness :
    (scenarioVr.get_all_votes = [] →
      analyze scenarioVr scenarioSchools scenarioAwards =
        .error "need at least one array to stack") ∧
    (scenarioVr.get_all_votes ≠ [] →
      ∃ res, analyze scenarioVr scenarioSchools scenarioAwards = .ok res ∧
        ∀ i j, i < 1 → j < 2 →
          entry res.total_avg i j =
            entry (totalSumOf scenarioVr.get_all_votes 1 2) i j /
              ((scenarioVr.get_all_votes).length : ℚ)) :=
  C6_zero_vote_behavior scenarioVr scenarioSchools scenarioAwards 1 2
    (by decide) scenario_coherent (by decide) (by decide)

/-- Claim C1 (counterexample to the claim as stated): the ports-based vote
repository accepts a vote whose matrix shape (2, 3) differs from the
canonical shape (1, 2) of the award set: `add_vote` does not fail and the
repository state changes, with the mismatched vote stored. -/
theorem C1_shape_check_counterexample :
    matrixSize scenarioAwards = some (1, 2) ∧
    matShape badVote.matrix ≠ (1, 2) ∧
    InMemoryVoteRepository.empty.add_vote badVote ≠
      InMemoryVoteRepository.empty ∧
    (InMemoryVoteRepository.empty.add_vote badVote).votes =
      [(badVote.id, badVote)] := by
  decide

/-- Claim C1 (amended): the shape check lives only in the class-based
`VoteManager.add_vote`: given a fresh id and a defined canonical shape, a
mismatched vote raises `ValueError("Vote matrix size is invalid", ...)` and
the manager is unchanged; the ports-based `InMemoryVoteRepository.add_vote`
applies no shape check and inserts any vote unconditionally, appending it to
the global dict and the per-school index. -/
theorem C1_shape_check :
    (∀ (m : VoteManager) (v : Vote) (sz : ℕ × ℕ),
      dictHas m.votes v.id = false →
      m.award_manager.voteMatrixSize = some sz →
      matShape v.matrix ≠ sz →
      VoteManager.add_vote m v = (some "Vote matrix size is invalid", m)) ∧
    (∀ (r : InMemoryVoteRepository) (v : Vote),
      dictFind (r.add_vote v).votes v.id = some v ∧
      dictGetD (r.add_vote v).school_votes v.school.name [] =
        dictGetD r.school_votes v.school.name [] ++ [v]) := by
  constructor
  · intro m v sz hdup hms hshape
    unfold VoteManager.add_vote
    rw [if_neg (by simp [hdup])]
    simp only [hms]
    rw [if_pos hshape]
  · intro r v
    exact ⟨dictFind_dictSet_self _ _ _, dictGetD_dictSet_self _ _ _ _⟩

/-- Witness for C1: the legacy manager rejects `badVote` over the one-award
set of canonical shape (1, 2); the repository stores it. -/
theorem C1_shape_check_witness :
    VoteManager.add_vote scenarioVm badVote =
      (some "Vote matrix size is invalid", scenarioVm) ∧
    dictFind (InMemoryVoteRepository.empty.add_vote badVote).votes
      badVote.id = some badVote :=
  ⟨C1_shape_check.1 scenarioVm badVote (1, 2) (by decide) (by decide)
     (by decide),
   (C1_shape_check.2 InMemoryVoteRepository.empty badVote).1⟩

/-- Claim C5 (counterexample to the claim as stated): re-adding a vote with an
existing id through the ports-based repository does not fail with
DuplicateKey: the state changes — the global entry is overwritten (still one
entry) while the per-school index receives a second element. -/
theorem C5_duplicate_vote_counterexample :
    vote1.id = dupVote.id ∧
    (InMemoryVoteRepository.empty.add_vote vote1).add_vote dupVote ≠
      InMemoryVoteRepository.empty.add_vote vote1 ∧
    ((InMemoryVoteRepository.empty.add_vote vote1).add_vote dupVote).votes =
      [("id1", dupVote)] ∧
    dictGetD
      ((InMemoryVoteRepository.empty.add_vote vote1).add_vote dupVote).school_votes
      "X" [] = [vote1, dupVote] := by
  decide

/-- Claim C5 (amended): the duplicate-id check lives only in the class-based
`VoteManager.add_vote`, which raises `ValueError("Vote already exists")` and
leaves the manager unchanged; the ports-based
`InMemoryVoteRepository.add_vote` never fails: a fresh id is appended to
both the global dict and the per-school index, while a duplicate id
overwrites the global entry (count unchanged) yet still appends to the
per-school index. -/
theorem C5_duplicate_vote :
    (∀ (m : VoteManager) (v : Vote), dictHas m.votes v.id = true →
      VoteManager.add_vote m v = (some "Vote already exists", m)) ∧
    (∀ (r : InMemoryVoteRepository) (v : Vote), dictHas r.votes v.id = false →
      (r.add_vote v).votes = r.votes ++ [(v.id, v)] ∧
      dictGetD (r.add_vote v).school_votes v.school.name [] =
        dictGetD r.school_votes v.school.name [] ++ [v]) ∧
    (∀ (r : InMemoryVoteRepository) (v : Vote), dictHas r.votes v.id = true →
      (r.add_vote v).votes.length = r.votes.length ∧
      dictFind (r.add_vote v).votes v.id = some v ∧
      dictGetD (r.add_vote v).school_votes v.school.name [] =
        dictGetD r.school_votes v.school.name [] ++ [v]) := by
  refine ⟨?_, ?_, ?_⟩
  · intro m v hdup
    unfold VoteManager.add_vote
    rw [if_pos hdup]
  · intro r v hnew
    exact ⟨dictSet_eq_append _ _ _ hnew, dictGetD_dictSet_self _ _ _ _⟩
  · intro r v hdup
    exact ⟨length_dictSet_of_has _ _ _ hdup, dictFind_dictSet_self _ _ _,
      dictGetD_dictSet_self _ _ _ _⟩

/-- Witness for C5: the legacy manager rejects the duplicate id; the
repository appends a fresh vote and silently overwrites a duplicate. -/
theorem C5_duplicate_vote_witness :
    VoteManager.add_vote { scenarioVm with votes := [("id1", vote1)] }
      dupVote =
      (some "Vote already exists",
       { scenarioVm with votes := [("id1", vote1)] }) ∧
    (InMemoryVoteRepository.empty.add_vote vote1).votes =
      InMemoryVoteRepository.empty.votes ++ [(vote1.id, vote1)] ∧
    ((InMemoryVoteRepository.empty.add_vote vote1).add_vote dupVote).votes.length =
      (InMemoryVoteRepository.empty.add_vote vote1).votes.length :=
  ⟨C5_duplicate_vote.1 { scenarioVm with votes := [("id1", vote1)] } dupVote
     (by decide),
   (C5_duplicate_vote.2.1 InMemoryVoteRepository.empty vote1 (by decide)).1,
   (C5_duplicate_vote.2.2 (InMemoryVoteRepository.empty.add_vote vote1)
     dupVote (by decide)).1⟩

/-- Claim C7 (counterexample to the claim as stated): in the §8 scenario,
school Y's averaged score at the cell of award 0 / work "A" is 0, yet Y
appears in that work's `school_avg` list of the projection (with avg 0.0),
so inclusion is not "iff the averaged score at the cell is non-zero". -/
theorem C7_school_avg_projection_counterexample :
    analyze scenarioVr scenarioSchools scenarioAwards = .ok scenarioRes ∧
    entry (dictGetD scenarioRes.school_avg "Y" []) 0 0 = 0 ∧
    "Y" ∈ (workSchoolAvgList (reportSchools scenarioSchools scenarioRes)
      scenarioRes 0 0).map (fun p => p.1) :=
  ⟨scenario_analyze, by decide, by decide⟩

/-- Claim C7 (amended): in `AnalysisService.generate_report`, a school appears
in every work's `school_avg` list iff its name is a key of
`results.school_avg` (it has at least one vote), independently of the cell
value: the inner `if school.name in results.school_avg` condition is
redundant over the already-filtered school list, and no per-cell non-zero
filter exists (that filter appears only in the legacy
`DataFormatReporter`). -/
theorem C7_school_avg_projection (schoolsAll : List School)
    (res : AnalysisResults) (i j : ℕ) :
    workSchoolAvgList (reportSchools schoolsAll res) res i j =
      (reportSchools schoolsAll res).map (fun s =>
        (s.name, entry (dictGetD res.school_avg s.name []) i j,
         entry (dictGetD res.school_nonzero_avg s.name []) i j)) ∧
    ∀ s ∈ schoolsAll,
      (s.name ∈ (workSchoolAvgList (reportSchools schoolsAll res) res i j).map
          (fun p => p.1) ↔
        dictHas res.school_avg s.name = true) := by
  have hff : (reportSchools schoolsAll res).filter
      (fun s => dictHas res.school_avg s.name) =
      reportSchools schoolsAll res := by
    unfold reportSchools
    rw [List.filter_filter]
    apply List.filter_congr
    intro t _
    exact Bool.and_self _
  constructor
  · unfold workSchoolAvgList
    rw [hff]
  · intro s hsmem
    constructor
    · intro hmem
      unfold workSchoolAvgList at hmem
      rw [hff] at hmem
      rw [List.map_map] at hmem
      obtain ⟨t, ht, hte⟩ := List.mem_map.mp hmem
      unfold reportSchools at ht
      have hhas₂ := (List.mem_filter.mp ht).2
      have hname : t.name = s.name := hte
      rw [← hname]
      exact hhas₂
    · intro hhas
      apply List.mem_map.mpr
      refine ⟨(s.name, entry (dictGetD res.school_avg s.name []) i j,
        entry (dictGetD res.school_nonzero_avg s.name []) i j), ?_, rfl⟩
      unfold workSchoolAvgList
      rw [hff]
      apply List.mem_map.mpr
      refine ⟨s, ?_, rfl⟩
      unfold reportSchools
      rw [List.mem_filter]
      exact ⟨hsmem, hhas⟩

/-- Witness for C7 at the concrete §8 scenario, cell (0, 0). -/
theorem C7_school_avg_projection_witness :
    workSchoolAvgList (reportSchools scenarioSchools scenarioRes)
      scenarioRes 0 0 =
      (reportSchools scenarioSchools scenarioRes).map (fun s =>
        (s.name, entry (dictGetD scenarioRes.school_avg s.name []) 0 0,
         entry (dictGetD scenarioRes.school_nonzero_avg s.name []) 0 0)) ∧
    ("Y" ∈ (workSchoolAvgList (reportSchools scenarioSchools scenarioRes)
        scenarioRes 0 0).map (fun p => p.1) ↔
      dictHas scenarioRes.school_avg "Y" = true) :=
  ⟨(C7_school_avg_projection scenarioSchools scenarioRes 0 0).1,
   (C7_school_avg_projection scenarioSchools scenarioRes 0 0).2 schoolY
     (by decide)⟩

/-! ## Work-repository lemmas -/

theorem dictGetD_dictSet_ne (d : List (String × α)) (k k₂ : String) (v : α)
    (d₀ : α) (h : k₂ ≠ k) : dictGetD (dictSet d k v) k₂ d₀ = dictGetD d k₂ d₀ := by
  simp [dictGetD, dictFind_dictSet_ne d k k₂ v h]

theorem mem_dictKeys_dictSet (d : List (String × α)) (q : String) (v : α)
    (k : String) :
    k ∈ dictKeys (dictSet d q v) ↔ (k ∈ dictKeys d ∨ k = q) := by
  by_cases hh : dictHas d q
  · rw [dictKeys_dictSet_of_has d q v hh]
    constructor
    · exact Or.inl
    · rintro (hk | rfl)
      · exact hk
      · exact (dictHas_iff_mem d k).mp hh
  · rw [dictKeys_dictSet_of_not d q v (by simpa using hh)]
    simp

theorem mem_dictKeys_dictUpdate (a b : List (String × α)) (k : String) :
    k ∈ dictKeys (dictUpdate a b) ↔ (k ∈ dictKeys a ∨ k ∈ dictKeys b) := by
  induction b generalizing a with
  | nil => simp [dictUpdate, dictKeys]
  | cons q b ih =>
    show k ∈ dictKeys (dictUpdate (dictSet a q.1 q.2) b) ↔ _
    rw [ih, mem_dictKeys_dictSet]
    simp [dictKeys, or_assoc, eq_comm]

theorem dictSet_bindings (d : List (String × α)) (k : String) (v : α) :
    ∀ p ∈ dictSet d k v, p.1 = k → p = (k, v) := by
  intro p hp hpk
  unfold dictSet at hp
  by_cases hh : dictHas d k
  · rw [if_pos hh] at hp
    rw [List.mem_map] at hp
    obtain ⟨q, _, hqe⟩ := hp
    by_cases hqk : q.1 = k
    · rw [← hqe, if_pos hqk]
    · rw [← hqe, if_neg hqk] at hpk ⊢
      exact absurd hpk hqk
  · rw [if_neg hh] at hp
    rcases List.mem_append.mp hp with hc | hc
    · exfalso
      apply hh
      rw [dictHas_iff_mem]
      rw [← hpk]
      exact List.mem_map_of_mem _ hc
    · simpa using hc

theorem dictSet_eq_self (d : List (String × α)) (k : String) (v : α)
    (hh : dictHas d k = true) (hall : ∀ p ∈ d, p.1 = k → p = (k, v)) :
    dictSet d k v = d := by
  unfold dictSet
  rw [if_pos hh]
  have hfix : ∀ p ∈ d, (if p.1 = k then (k, v) else p) = p := by
    intro p hp
    by_cases hpk : p.1 = k
    · rw [if_pos hpk]
      exact (hall p hp hpk).symm
    · rw [if_neg hpk]
  calc d.map (fun p => if p.1 = k then (k, v) else p)
      = d.map id := List.map_congr_left hfix
    _ = d := List.map_id d

theorem bindings_dictSet_ne (d : List (String × α)) (q : String) (u : α)
    (k : String) (v : α) (hqk : ¬ (q = k))
    (hall : ∀ p ∈ d, p.1 = k → p = (k, v)) :
    ∀ p ∈ dictSet d q u, p.1 = k → p = (k, v) := by
  intro p hp hpk
  rcases dictSet_mem d q u p hp with hc | hc
  · exact hall p hc hpk
  · rw [hc] at hpk
    exact absurd hpk hqk

theorem bindings_dictUpdate (d e : List (String × α)) (k : String) (v : α)
    (hk : k ∉ dictKeys e) (hall : ∀ p ∈ d, p.1 = k → p = (k, v)) :
    ∀ p ∈ dictUpdate d e, p.1 = k → p = (k, v) := by
  induction e generalizing d with
  | nil => exact hall
  | cons q e ih =>
    have hk₂ : ¬ (k = q.1) ∧ k ∉ dictKeys e := by
      simpa [dictKeys] using hk
    show ∀ p ∈ dictUpdate (dictSet d q.1 q.2) e, p.1 = k → p = (k, v)
    exact ih (dictSet d q.1 q.2) hk₂.2
      (bindings_dictSet_ne d q.1 q.2 k v (fun hc => hk₂.1 hc.symm) hall)

theorem dictHas_dictUpdate_of_has (d e : List (String × α)) (k : String)
    (h : dictHas d k = true) : dictHas (dictUpdate d e) k = true := by
  induction e generalizing d with
  | nil => exact h
  | cons q e ih =>
    show dictHas (dictUpdate (dictSet d q.1 q.2) e) k = true
    exact ih (dictSet d q.1 q.2) (dictHas_dictSet_of_has d q.1 k q.2 h)

theorem dictUpdate_idem (a b : List (String × α))
    (hnd : (dictKeys b).Nodup) : dictUpdate (dictUpdate a b) b = dictUpdate a b := by
  induction b generalizing a with
  | nil => rfl
  | cons q b ih =>
    have hnd₂ : q.1 ∉ dictKeys b ∧ (dictKeys b).Nodup := by
      have : (q.1 :: dictKeys b).Nodup := by simpa [dictKeys] using hnd
      exact ⟨(List.nodup_cons.mp this).1, (List.nodup_cons.mp this).2⟩
    show dictUpdate (dictSet (dictUpdate (dictSet a q.1 q.2) b) q.1 q.2) b =
      dictUpdate (dictSet a q.1 q.2) b
    have hset : dictSet (dictUpdate (dictSet a q.1 q.2) b) q.1 q.2 =
        dictUpdate (dictSet a q.1 q.2) b :=
      dictSet_eq_self _ _ _
        (dictHas_dictUpdate_of_has _ b q.1 (dictHas_dictSet_self a q.1 q.2))
        (bindings_dictUpdate (dictSet a q.1 q.2) b q.1 q.2 hnd₂.1
          (dictSet_bindings a q.1 q.2))
    rw [hset]
    exact ih (dictSet a q.1 q.2) hnd₂.2

theorem addWorkStep_mem_mono (t : String) (d : List (String × List String))
    (q : String × ℕ) (k : String) (h : t ∈ dictGetD d k []) :
    t ∈ dictGetD (InMemoryWorkRepository.addWorkStep t d q) k [] := by
  unfold InMemoryWorkRepository.addWorkStep
  by_cases hin : t ∈ dictGetD d q.1 []
  · rw [if_pos hin]
    exact h
  · rw [if_neg hin]
    by_cases hk : k = q.1
    · rw [hk, dictGetD_dictSet_self]
      simp
    · rw [dictGetD_dictSet_ne _ _ _ _ _ hk]
      exact h

theorem addWorkStep_self (t : String) (d : List (String × List String))
    (q : String × ℕ) :
    t ∈ dictGetD (InMemoryWorkRepository.addWorkStep t d q) q.1 [] := by
  unfold InMemoryWorkRepository.addWorkStep
  by_cases hin : t ∈ dictGetD d q.1 []
  · rw [if_pos hin]
    exact hin
  · rw [if_neg hin, dictGetD_dictSet_self]
    simp

theorem wbaFold_mem_mono (t : String) (l : List (String × ℕ))
    (d : List (String × List String)) (k : String) (h : t ∈ dictGetD d k []) :
    t ∈ dictGetD (l.foldl (InMemoryWorkRepository.addWorkStep t) d) k [] := by
  induction l generalizing d with
  | nil => exact h
  | cons q l ih =>
    rw [List.foldl_cons]
    exact ih _ (addWorkStep_mem_mono t d q k h)

theorem wbaFold_mem (t : String) (l : List (String × ℕ))
    (d : List (String × List String)) :
    ∀ p ∈ l, t ∈ dictGetD (l.foldl (InMemoryWorkRepository.addWorkStep t) d) p.1 [] := by
  induction l generalizing d with
  | nil => simp
  | cons q l ih =>
    intro p hp
    rw [List.foldl_cons]
    rcases List.mem_cons.mp hp with rfl | hmem
    · exact wbaFold_mem_mono t l _ p.1 (addWorkStep_self t d p)
    · exact ih _ p hmem

theorem wbaFold_skip (t : String) (l : List (String × ℕ))
    (d : List (String × List String))
    (h : ∀ p ∈ l, t ∈ dictGetD d p.1 []) :
    l.foldl (InMemoryWorkRepository.addWorkStep t) d = d := by
  induction l with
  | nil => rfl
  | cons q l ih =>
    rw [List.foldl_cons]
    have hstep : InMemoryWorkRepository.addWorkStep t d q = d := by
      unfold InMemoryWorkRepository.addWorkStep
      rw [if_pos (h q (List.mem_cons_self _ _))]
    rw [hstep]
    exact ih (fun p hp => h p (List.mem_cons_of_mem _ hp))

theorem add_work_found (r : InMemoryWorkRepository) (w w₀ : Work)
    (hfound : dictFind r.works w.title = some w₀) :
    r.add_work w =
      ⟨dictSet r.works w.title
         ⟨w₀.title, dictUpdate w₀.award_indexes w.award_indexes⟩,
       (dictUpdate w₀.award_indexes w.award_indexes).foldl
         (InMemoryWorkRepository.addWorkStep w.title) r.works_by_award⟩ := by
  unfold InMemoryWorkRepository.add_work
  simp only [hfound]

/-- Claim C8: re-adding a work whose title is already registered merges the
`award_indexes` mappings on the single stored entity (no failure, no
duplicate): the work count is unchanged, the stored mapping's keys are the
union of both mappings' keys, and re-adding the identical work again is
idempotent. (`award_indexes` comes from a Python dict, so its keys are
assumed distinct.) -/
theorem C8_work_merge (r : InMemoryWorkRepository) (w w₀ : Work)
    (hfound : dictFind r.works w.title = some w₀)
    (hnd : (dictKeys w.award_indexes).Nodup) :
    (r.add_work w).works.length = r.works.length ∧
    dictFind (r.add_work w).works w.title =
      some ⟨w₀.title, dictUpdate w₀.award_indexes w.award_indexes⟩ ∧
    (∀ k, k ∈ dictKeys (dictUpdate w₀.award_indexes w.award_indexes) ↔
      (k ∈ dictKeys w₀.award_indexes ∨ k ∈ dictKeys w.award_indexes)) ∧
    (r.add_work w).add_work w = r.add_work w := by
  have hhas : dictHas r.works w.title = true := by
    rw [← dictFind_isSome, hfound]
    rfl
  have hfind₁ : dictFind (r.add_work w).works w.title =
      some ⟨w₀.title, dictUpdate w₀.award_indexes w.award_indexes⟩ := by
    rw [add_work_found r w w₀ hfound]
    exact dictFind_dictSet_self _ _ _
  refine ⟨?_, hfind₁, fun k => mem_dictKeys_dictUpdate _ _ k, ?_⟩
  · rw [add_work_found r w w₀ hfound]
    exact length_dictSet_of_has _ _ _ hhas
  · rw [add_work_found (r.add_work w) w _ hfind₁]
    rw [add_work_found r w w₀ hfound]
    simp only [dictUpdate_idem w₀.award_indexes w.award_indexes hnd]
    congr 1
    · exact dictSet_eq_self _ _ _ (dictHas_dictSet_self _ _ _)
        (dictSet_bindings _ _ _)
    · exact wbaFold_skip _ _ _ (wbaFold_mem _ _ _)

/-- Witness for C8: the §8 award set, re-registering work "A" under a second
award "b". -/
theorem C8_work_merge_witness :
    ((InMemoryWorkRepository.empty.add_work
        ⟨"A", [("a", 0)]⟩).add_work ⟨"A", [("b", 1)]⟩).works.length =
      (InMemoryWorkRepository.empty.add_work ⟨"A", [("a", 0)]⟩).works.length ∧
    dictFind ((InMemoryWorkRepository.empty.add_work
        ⟨"A", [("a", 0)]⟩).add_work ⟨"A", [("b", 1)]⟩).works "A" =
      some ⟨"A", dictUpdate [("a", 0)] [("b", 1)]⟩ ∧
    (∀ k, k ∈ dictKeys (dictUpdate [("a", (0 : ℕ))] [("b", 1)]) ↔
      (k ∈ dictKeys [("a", (0 : ℕ))] ∨ k ∈ dictKeys [("b", (1 : ℕ))])) ∧
    ((InMemoryWorkRepository.empty.add_work
        ⟨"A", [("a", 0)]⟩).add_work ⟨"A", [("b", 1)]⟩).add_work
        ⟨"A", [("b", 1)]⟩ =
      (InMemoryWorkRepository.empty.add_work
        ⟨"A", [("a", 0)]⟩).add_work ⟨"A", [("b", 1)]⟩ :=
  C8_work_merge (InMemoryWorkRepository.empty.add_work ⟨"A", [("a", 0)]⟩)
    ⟨"A", [("b", 1)]⟩ ⟨"A", [("a", 0)]⟩ (by decide) (by decide)

/-! ## Document lemmas for the binary cache format -/

theorem JVal.indOn (P : JVal → Prop)
    (h0 : P .null) (h1 : ∀ b, P (.jbool b)) (h2 : ∀ n, P (.jint n))
    (h3 : ∀ q, P (.jfloat q)) (h4 : ∀ s, P (.jstr s))
    (h5 : ∀ xs, (∀ x ∈ xs, P x) → P (.jarr xs))
    (h6 : ∀ kvs, (∀ p ∈ kvs, P p.2) → P (.jobj kvs)) :
    ∀ v, P v := by
  have H : ∀ n (v : JVal), sizeOf v ≤ n → P v := by
    intro n
    induction n with
    | zero =>
      intro v hv
      exfalso
      cases v <;> simp_arith at hv
    | succ n ih =>
      intro v hv
      cases v with
      | null => exact h0
      | jbool b => exact h1 b
      | jint m => exact h2 m
      | jfloat q => exact h3 q
      | jstr s => exact h4 s
      | jarr xs =>
        refine h5 xs ?_
        intro x hx
        apply ih
        have hlt := List.sizeOf_lt_of_mem hx
        have hsz : sizeOf (JVal.jarr xs) = 1 + sizeOf xs := by simp
        omega
      | jobj kvs =>
        refine h6 kvs ?_
        intro p hp
        apply ih
        have hlt := List.sizeOf_lt_of_mem hp
        have hps : sizeOf p.2 < sizeOf p := by
          obtain ⟨a, b⟩ := p
          simp_arith
        have hsz : sizeOf (JVal.jobj kvs) = 1 + sizeOf kvs := by simp
        omega
  exact fun v => H (sizeOf v) v le_rfl

theorem process_list_eq_map (xs : List JVal) :
    process_list xs = xs.map process_value := by
  induction xs with
  | nil => rfl
  | cons x xs ih => rw [process_list, List.map_cons, ih]

theorem process_fields_eq_map (kvs : List (String × JVal)) :
    process_fields kvs = kvs.map (fun p => (p.1, process_value p.2)) := by
  induction kvs with
  | nil => rfl
  | cons p kvs ih => rw [process_fields, List.map_cons, ih]

theorem mapFloatsList_eq_map (f : ℚ → ℚ) (xs : List JVal) :
    mapFloatsList f xs = xs.map (mapFloats f) := by
  induction xs with
  | nil => rfl
  | cons x xs ih => rw [mapFloatsList, List.map_cons, ih]

theorem mapFloatsFields_eq_map (f : ℚ → ℚ) (kvs : List (String × JVal)) :
    mapFloatsFields f kvs = kvs.map (fun p => (p.1, mapFloats f p.2)) := by
  induction kvs with
  | nil => rfl
  | cons p kvs ih => rw [mapFloatsFields, List.map_cons, ih]

theorem process_value_eq_mapFloats :
    ∀ v, process_value v = mapFloats round_float v := by
  apply JVal.indOn
  · rfl
  · intro b
    rfl
  · intro n
    rfl
  · intro q
    rfl
  · intro s
    rfl
  · intro xs hxs
    rw [process_value, mapFloats, process_list_eq_map, mapFloatsList_eq_map]
    exact congrArg JVal.jarr (List.map_congr_left hxs)
  · intro kvs hkvs
    rw [process_value, mapFloats, process_fields_eq_map, mapFloatsFields_eq_map]
    refine congrArg JVal.jobj (List.map_congr_left ?_)
    intro p hp
    rw [hkvs p hp]

theorem jdepth_pos : ∀ v : JVal, 0 < jdepth v := by
  intro v
  cases v <;> simp [jdepth]

theorem jdepth_mem_list (x : JVal) (xs : List JVal) (hx : x ∈ xs) :
    jdepth x ≤ jdepthList xs := by
  induction xs with
  | nil => simp at hx
  | cons y xs ih =>
    rw [jdepthList]
    rcases List.mem_cons.mp hx with rfl | hmem
    · exact Nat.le_max_left _ _
    · exact le_trans (ih hmem) (Nat.le_max_right _ _)

theorem jdepth_mem_fields (p : String × JVal) (kvs : List (String × JVal))
    (hp : p ∈ kvs) : jdepth p.2 ≤ jdepthFields kvs := by
  induction kvs with
  | nil => simp at hp
  | cons q kvs ih =>
    rw [jdepthFields]
    rcases List.mem_cons.mp hp with rfl | hmem
    · exact Nat.le_max_left _ _
    · exact le_trans (ih hmem) (Nat.le_max_right _ _)

theorem jdepthList_le_encodeList (xs : List JVal)
    (h : ∀ x ∈ xs, jdepth x ≤ (encodeVal x).length) :
    jdepthList xs ≤ (encodeList xs).length := by
  induction xs with
  | nil => simp [jdepthList, encodeList]
  | cons x xs ih =>
    rw [jdepthList, encodeList, List.length_append]
    have h1 := h x (List.mem_cons_self _ _)
    have h2 := ih (fun y hy => h y (List.mem_cons_of_mem _ hy))
    exact Nat.max_le.mpr ⟨by omega, by omega⟩

theorem jdepthFields_le_encodeFields (kvs : List (String × JVal))
    (h : ∀ p ∈ kvs, jdepth p.2 ≤ (encodeVal p.2).length) :
    jdepthFields kvs ≤ (encodeFields kvs).length := by
  induction kvs with
  | nil => simp [jdepthFields, encodeFields]
  | cons p kvs ih =>
    rw [jdepthFields, encodeFields, List.length_cons, List.length_append]
    have h1 := h p (List.mem_cons_self _ _)
    have h2 := ih (fun q hq => h q (List.mem_cons_of_mem _ hq))
    exact Nat.max_le.mpr ⟨by omega, by omega⟩

theorem jdepth_le_encode_length : ∀ v : JVal, jdepth v ≤ (encodeVal v).length := by
  apply JVal.indOn
  · simp [jdepth, encodeVal]
  · intro b
    simp [jdepth, encodeVal]
  · intro n
    simp [jdepth, encodeVal]
  · intro q
    simp [jdepth, encodeVal]
  · intro s
    simp [jdepth, encodeVal]
  · intro xs hxs
    rw [jdepth, encodeVal, List.length_cons]
    have := jdepthList_le_encodeList xs hxs
    omega
  · intro kvs hkvs
    rw [jdepth, encodeVal, List.length_cons]
    have := jdepthFields_le_encodeFields kvs hkvs
    omega

theorem decodeItems_encodeList (fuel : ℕ)
    (IH : ∀ v : JVal, jdepth v ≤ fuel →
      ∀ rest, decodeVal fuel (encodeVal v ++ rest) = some (v, rest)) :
    ∀ (xs : List JVal), (∀ x ∈ xs, jdepth x ≤ fuel) →
      ∀ rest, decodeItems fuel xs.length (encodeList xs ++ rest) =
        some (xs, rest) := by
  intro xs
  induction xs with
  | nil =>
    intro _ rest
    simp [encodeList, decodeItems]
  | cons x xs ih =>
    intro hall rest
    have h1 := IH x (hall x (List.mem_cons_self _ _)) (encodeList xs ++ rest)
    have h2 := ih (fun y hy => hall y (List.mem_cons_of_mem _ hy)) rest
    show decodeItems fuel (xs.length + 1) ((encodeVal x ++ encodeList xs) ++ rest) =
      some (x :: xs, rest)
    rw [List.append_assoc]
    simp [decodeItems, h1, h2]

theorem decodeFields_encodeFields (fuel : ℕ)
    (IH : ∀ v : JVal, jdepth v ≤ fuel →
      ∀ rest, decodeVal fuel (encodeVal v ++ rest) = some (v, rest)) :
    ∀ (kvs : List (String × JVal)), (∀ p ∈ kvs, jdepth p.2 ≤ fuel) →
      ∀ rest, decodeFields fuel kvs.length (encodeFields kvs ++ rest) =
        some (kvs, rest) := by
  intro kvs
  induction kvs with
  | nil =>
    intro _ rest
    simp [encodeFields, decodeFields]
  | cons p kvs ih =>
    intro hall rest
    have h1 := IH p.2 (hall p (List.mem_cons_self _ _))
      (encodeFields kvs ++ rest)
    have h2 := ih (fun q hq => hall q (List.mem_cons_of_mem _ hq)) rest
    show decodeFields fuel (kvs.length + 1)
      ((Tok.tstr p.1 :: (encodeVal p.2 ++ encodeFields kvs)) ++ rest) =
      some (p :: kvs, rest)
    rw [List.cons_append, List.append_assoc]
    simp [decodeFields, h1, h2]

theorem decode_encode (fuel : ℕ) :
    ∀ v : JVal, jdepth v ≤ fuel →
      ∀ rest, decodeVal fuel (encodeVal v ++ rest) = some (v, rest) := by
  induction fuel with
  | zero =>
    intro v hv
    have := jdepth_pos v
    omega
  | succ fuel ih =>
    intro v hv rest
    cases v with
    | null => simp [encodeVal, decodeVal]
    | jbool b => simp [encodeVal, decodeVal]
    | jint n => simp [encodeVal, decodeVal]
    | jfloat q => simp [encodeVal, decodeVal]
    | jstr s => simp [encodeVal, decodeVal]
    | jarr xs =>
      have hxs : ∀ x ∈ xs, jdepth x ≤ fuel := by
        intro x hx
        have h1 := jdepth_mem_list x xs hx
        have h2 : jdepthList xs + 1 ≤ fuel + 1 := by
          rw [jdepth] at hv
          omega
        omega
      have hitems := decodeItems_encodeList fuel ih xs hxs rest
      show decodeVal (fuel + 1) ((Tok.tarr xs.length :: encodeList xs) ++ rest) =
        some (JVal.jarr xs, rest)
      rw [List.cons_append, decodeVal, hitems]
    | jobj kvs =>
      have hkvs : ∀ p ∈ kvs, jdepth p.2 ≤ fuel := by
        intro p hp
        have h1 := jdepth_mem_fields p kvs hp
        have h2 : jdepthFields kvs + 1 ≤ fuel + 1 := by
          rw [jdepth] at hv
          omega
        omega
      have hfields := decodeFields_encodeFields fuel ih kvs hkvs rest
      show decodeVal (fuel + 1) ((Tok.tmap kvs.length :: encodeFields kvs) ++ rest) =
        some (JVal.jobj kvs, rest)
      rw [List.cons_append, decodeVal, hfields]

theorem msgUnpack_msgPack (d : JVal) :
    msgUnpack (msgPack d) = some (process_value d) := by
  unfold msgPack msgUnpack
  have h := decode_encode (encodeVal (process_value d)).length (process_value d)
    (jdepth_le_encode_length (process_value d)) []
  rw [List.append_nil] at h
  rw [h]

/-- Claim C9: the msgpack path of the reporter — round every float to 4
decimal places (`_optimize_for_msgpack`), then serialize through the
spec-modelled canonical tree-to-token encoding — decodes back to exactly the
original document with every float rounded to 4 decimals and all mapping
structure preserved. -/
theorem C9_msgpack_roundtrip (d : JVal) :
    msgUnpack (msgPack d) = some (mapFloats round_float d) ∧
    process_value d = mapFloats round_float d :=
  ⟨by rw [msgUnpack_msgPack, process_value_eq_mapFloats],
   process_value_eq_mapFloats d⟩

end BTA
